import Mathlib

/-!
# ofxMSAmcts: the search-tree node `msa::mcts::TreeNodeT<State, Action>`

A shallow embedding of `src/TreeNodeT.h`.

* A `TreeNodeT*` is a `Nat`: the index of the node in the store of all nodes allocated so far
  (`new TreeNodeT(...)` appends to the store). `NULL` is `none : Option Nat`.
* The template parameters `State` and `Action`, `std::random_shuffle` and the behaviour of an
  unchecked out-of-range `std::vector::operator[]` are not defined by the header; they are the
  fields of `Env`.
* `float` is an arbitrary type `Value` with a zero and an addition, no law assumed.
* `int num_visits` is an `Int` kept in the 32-bit two's-complement range: `num_visits++` goes
  through `wrap_int`, so the increment at `INT_MAX` gives `INT_MIN`, as the machine does.
  `depth` and the result of `get_num_children()` are `Int`s that no statement takes beyond
  `INT_MAX` short of a tree of `2^31` live nodes.
* A call returns `Except Fault _`: `.error` is a call that leaves defined behaviour by a trap,
  `.ok` carries the store after the call and what the call returns.
-/

namespace msa.mcts

/-- The ways a call can leave defined behaviour. -/
inductive Fault where
  | invalid_pointer
  | index_out_of_range
  deriving DecidableEq, Repr

/-- The data members of `class TreeNodeT` (lines 102-111). `children` holds the owning pointers in
insertion order. -/
structure TreeNodeT (State Action Value : Type) where
  state : State
  action : Action
  parent : Option Nat
  num_visits : Int
  value : Value
  depth : Int
  children : List Nat
  actions : List Action
  deriving DecidableEq, Repr

/-- What the header uses and does not define: the `State` interface (`get_actions`,
`apply_action`, `is_terminal`), `std::random_shuffle` drawing on a random source `Rng`, and
`stray`, what reading a `std::vector<Action>` past its end produces: `none` when the read traps,
`some a` when it hands back the value `a` lying there and execution goes on. -/
structure Env (State Action Rng : Type) where
  get_actions : State → List Action
  apply_action : State → Action → State
  is_terminal : State → Bool
  random_shuffle : Rng → List Action → List Action × Rng
  stray : Option Action

/-- The program state: every node allocated so far, and the state of the random source. -/
structure Store (State Action Value Rng : Type) where
  nodes : List (TreeNodeT State Action Value)
  rng : Rng
  deriving DecidableEq, Repr

/-- The value a 32-bit two's-complement `int` holds for the mathematical result `x`: `x` itself
from `INT_MIN = -2147483648` to `INT_MAX = 2147483647`, reduced modulo `2^32` outside. -/
def wrap_int (x : Int) : Int := (x + 2147483648) % 4294967296 - 2147483648

section

variable {State Action Value Rng : Type}

/-- `std::vector<Action>::operator[]` as `expand` uses it on `actions` (line 58): no bounds
check. In range it yields the element; out of range the read is undefined behaviour, and `stray`
says whether it traps or which value it hands back. -/
def vector_at (stray : Option Action) (v : List Action) (i : Nat) : Except Fault Action :=
  match v[i]? with
  | some a => .ok a
  | none =>
    match stray with
    | some a => .ok a
    | none => .error .index_out_of_range

/-- The constructor `TreeNodeT(const State& state, TreeNodeT* parent = NULL)` (lines 27-35). A
non-null `parent` comes with the node it points to, which the constructor reads for `depth`. -/
def TreeNodeT.new [Inhabited Action] [Zero Value] (state : State)
    (parent : Option (Nat × TreeNodeT State Action Value)) : TreeNodeT State Action Value :=
  { state := state
    action := default
    parent := parent.map Prod.fst
    num_visits := 0
    value := 0
    depth := match parent with
      | some (_, pn) => pn.depth + 1
      | none => 0
    children := []
    actions := [] }

/-- `get_state` (line 72). -/
def TreeNodeT.get_state (nd : TreeNodeT State Action Value) : State := nd.state

/-- `get_action` (line 75). -/
def TreeNodeT.get_action (nd : TreeNodeT State Action Value) : Action := nd.action

/-- `is_fully_expanded` (line 78). -/
def TreeNodeT.is_fully_expanded (nd : TreeNodeT State Action Value) : Bool :=
  (nd.children.isEmpty == false) && (nd.children.length == nd.actions.length)

/-- `is_terminal` (line 81). -/
def TreeNodeT.is_terminal (E : Env State Action Rng) (nd : TreeNodeT State Action Value) : Bool :=
  E.is_terminal nd.state

/-- `get_num_visits` (line 84). -/
def TreeNodeT.get_num_visits (nd : TreeNodeT State Action Value) : Int := nd.num_visits

/-- `get_value` (line 87). -/
def TreeNodeT.get_value (nd : TreeNodeT State Action Value) : Value := nd.value

/-- `get_depth` (line 90). -/
def TreeNodeT.get_depth (nd : TreeNodeT State Action Value) : Int := nd.depth

/-- `get_num_children` (line 93). -/
def TreeNodeT.get_num_children (nd : TreeNodeT State Action Value) : Int := nd.children.length

/-- `get_child` (line 96); the index is in range or the call is a fault. -/
def TreeNodeT.get_child (nd : TreeNodeT State Action Value) (i : Int) : Except Fault Nat :=
  if i < 0 then .error .index_out_of_range
  else
    match nd.children[i.toNat]? with
    | some c => .ok c
    | none => .error .index_out_of_range

/-- `get_parent` (line 99). -/
def TreeNodeT.get_parent (nd : TreeNodeT State Action Value) : Option Nat := nd.parent

/-- `add_child_with_action` (lines 116-130), called on the node `this` of the store. -/
def TreeNodeT.add_child_with_action [Inhabited Action] [Zero Value] (E : Env State Action Rng)
    (σ : Store State Action Value Rng) (this : Nat) (new_action : Action) :
    Except Fault (Store State Action Value Rng × Nat) :=
  match σ.nodes[this]? with
  | none => .error .invalid_pointer
  | some nd =>
    let child_node : TreeNodeT State Action Value := TreeNodeT.new nd.state (some (this, nd))
    let child_node := { child_node with action := new_action }
    let child_node := { child_node with state := E.apply_action child_node.state new_action }
    let p := σ.nodes.length
    .ok ({ σ with
            nodes := σ.nodes.set this { nd with children := nd.children ++ [p] } ++ [child_node] },
         p)

/-- `expand` (lines 40-59), called on the node `this` of the store. The result is the new store
and the returned pointer (`none` for `NULL`). -/
def TreeNodeT.expand [Inhabited Action] [Zero Value] (E : Env State Action Rng)
    (σ : Store State Action Value Rng) (this : Nat) :
    Except Fault (Store State Action Value Rng × Option Nat) :=
  match σ.nodes[this]? with
  | none => .error .invalid_pointer
  | some nd =>
    if nd.is_fully_expanded then .ok (σ, none)
    else
      let σ1 : Store State Action Value Rng :=
        if nd.actions.isEmpty then
          let r := E.random_shuffle σ.rng (E.get_actions nd.state)
          { nodes := σ.nodes.set this { nd with actions := r.1 }, rng := r.2 }
        else σ
      match σ1.nodes[this]? with
      | none => .error .invalid_pointer
      | some nd1 =>
        match vector_at E.stray nd1.actions nd1.children.length with
        | .error f => .error f
        | .ok a =>
          match TreeNodeT.add_child_with_action E σ1 this a with
          | .error f => .error f
          | .ok (σ2, c) => .ok (σ2, some c)

/-- `update` (lines 63-66), called on the node `this` of the store; `num_visits++` is the
increment of a 32-bit `int`. -/
def TreeNodeT.update [Add Value] (σ : Store State Action Value Rng) (this : Nat) (value : Value) :
    Except Fault (Store State Action Value Rng) :=
  match σ.nodes[this]? with
  | none => .error .invalid_pointer
  | some nd =>
    .ok { σ with
          nodes := σ.nodes.set this
            { nd with value := nd.value + value, num_visits := wrap_int (nd.num_visits + 1) } }

/-- A caller constructing the root: `TreeNodeT root(state)` as the only node of the store. -/
def plant [Inhabited Action] [Zero Value] (state : State) (rng : Rng) :
    Store State Action Value Rng :=
  { nodes := [TreeNodeT.new state none], rng := rng }

/-- One call made by the search loop on a node of the tree. -/
inductive Call (Value : Type) where
  | expand (p : Nat)
  | update (p : Nat) (v : Value)

/-- Perform one call; the returned pointer of `expand` is dropped. -/
def perform [Inhabited Action] [Zero Value] [Add Value] (E : Env State Action Rng)
    (σ : Store State Action Value Rng) : Call Value → Except Fault (Store State Action Value Rng)
  | .expand p =>
    match TreeNodeT.expand E σ p with
    | .error f => .error f
    | .ok (σ1, _) => .ok σ1
  | .update p v => TreeNodeT.update σ p v

/-- Perform a finite sequence of calls, in order. -/
def run [Inhabited Action] [Zero Value] [Add Value] (E : Env State Action Rng)
    (σ : Store State Action Value Rng) : List (Call Value) → Except Fault (Store State Action Value Rng)
  | [] => .ok σ
  | c :: cs =>
    match perform E σ c with
    | .error f => .error f
    | .ok σ1 => run E σ1 cs

/-- Call `expand` on the same node `n` times, collecting the returned pointers in call order. -/
def expand_times [Inhabited Action] [Zero Value] (E : Env State Action Rng)
    (σ : Store State Action Value Rng) (this : Nat) :
    Nat → Except Fault (Store State Action Value Rng × List (Option Nat))
  | 0 => .ok (σ, [])
  | n + 1 =>
    match TreeNodeT.expand E σ this with
    | .error f => .error f
    | .ok (σ1, r) =>
      match expand_times E σ1 this n with
      | .error f => .error f
      | .ok (σ2, rs) => .ok (σ2, r :: rs)

/-- Call `update` on the same node once per increment, in list order. -/
def update_all [Add Value] (σ : Store State Action Value Rng) (this : Nat) :
    List Value → Except Fault (Store State Action Value Rng)
  | [] => .ok σ
  | v :: vs =>
    match TreeNodeT.update σ this v with
    | .error f => .error f
    | .ok σ1 => update_all σ1 this vs

/-- The `get_action()` values of the children of a node, in child order; a child pointer that
does not name a node of the store contributes nothing. -/
def child_actions (σ : Store State Action Value Rng) (nd : TreeNodeT State Action Value) :
    List Action :=
  nd.children.filterMap fun c => (σ.nodes[c]?).map TreeNodeT.get_action

/-- Follow `get_child(i)` steps from a node, one per index of the list. -/
def descend (σ : Store State Action Value Rng) (p : Nat) : List Int → Except Fault Nat
  | [] => .ok p
  | i :: is =>
    match σ.nodes[p]? with
    | none => .error .invalid_pointer
    | some nd =>
      match nd.get_child i with
      | .error f => .error f
      | .ok c => descend σ c is

/-- The action list `expand` indexes, and the random source it leaves, once its first-expansion
block (lines 48-55) is through. -/
def restock (E : Env State Action Rng) (g : Rng) (nd : TreeNodeT State Action Value) :
    List Action × Rng :=
  if nd.actions.isEmpty then E.random_shuffle g (E.get_actions nd.state) else (nd.actions, g)

/-- The node `add_child_with_action` allocates when called on `this`, which points to `nd`. -/
def offspring [Zero Value] (E : Env State Action Rng) (this : Nat)
    (nd : TreeNodeT State Action Value) (a : Action) : TreeNodeT State Action Value :=
  { state := E.apply_action nd.state a
    action := a
    parent := some this
    num_visits := 0
    value := 0
    depth := nd.depth + 1
    children := []
    actions := [] }

/-- The store after `expand` on `this` (pointing to `nd`) has added a child for the action `a`. -/
def grown [Zero Value] (E : Env State Action Rng) (σ : Store State Action Value Rng) (this : Nat)
    (nd : TreeNodeT State Action Value) (a : Action) : Store State Action Value Rng :=
  { nodes :=
      σ.nodes.set this
          { nd with actions := (restock E σ.rng nd).1, children := nd.children ++ [σ.nodes.length] }
        ++ [offspring E this nd a]
    rng := (restock E σ.rng nd).2 }

/-- The store after `update(v)` on `this`, which points to `nd`. -/
def bumped [Add Value] (σ : Store State Action Value Rng) (this : Nat)
    (nd : TreeNodeT State Action Value) (v : Value) : Store State Action Value Rng :=
  { σ with
    nodes := σ.nodes.set this
      { nd with value := nd.value + v, num_visits := wrap_int (nd.num_visits + 1) } }

/-- Parent and child agree: every child pointer of a node names a later node of the store, whose
`parent` points back and whose `depth` is one more. -/
def Linked (σ : Store State Action Value Rng) : Prop :=
  ∀ (p : Nat) (nd : TreeNodeT State Action Value), σ.nodes[p]? = some nd → ∀ c ∈ nd.children,
    p < c ∧ ∃ ch : TreeNodeT State Action Value,
      σ.nodes[c]? = some ch ∧ ch.parent = some p ∧ ch.depth = nd.depth + 1

end

/-- A small domain for the concrete checks: a pile of tokens, a move takes one or two of them,
the empty pile is terminal and has no legal move. The shuffle reverses the list and counts its
calls. -/
def pile (stray : Option Nat) : Env Nat Nat Nat where
  get_actions := fun s => if 2 ≤ s then [1, 2] else if s = 1 then [1] else []
  apply_action := fun s a => s - a
  is_terminal := fun s => s == 0
  random_shuffle := fun g l => (l.reverse, g + 1)
  stray := stray

/-- The pile of three tokens after one `expand` on the root. -/
def pile_expanded_once : Store Nat Nat Int Nat :=
  { nodes := [⟨3, 0, none, 0, 0, 0, [1], [2, 1]⟩, ⟨1, 2, some 0, 0, 0, 1, [], []⟩], rng := 1 }

/-- The pile of three tokens after one `update(5)` on the root. -/
def pile_updated_once : Store Nat Nat Int Nat :=
  { nodes := [⟨3, 0, none, 1, 5, 0, [], []⟩], rng := 0 }

/-- The pile of one token after one `expand` on the root, which is then fully expanded. -/
def pile_full : Store Nat Nat Int Nat :=
  { nodes := [⟨1, 0, none, 0, 0, 0, [1], [1]⟩, ⟨0, 1, some 0, 0, 0, 1, [], []⟩], rng := 1 }

/-- The pile of three tokens after `update(5)` and then `expand` on the root. -/
def pile_settled : Store Nat Nat Int Nat :=
  { nodes := [⟨3, 0, none, 1, 5, 0, [1], [2, 1]⟩, ⟨1, 2, some 0, 0, 0, 1, [], []⟩], rng := 1 }

/-- The store `pile_settled` after a second `expand` on the root and `update(1)` on the first
child. -/
def pile_settled_later : Store Nat Nat Int Nat :=
  { nodes := [⟨3, 0, none, 1, 5, 0, [1, 2], [2, 1]⟩, ⟨1, 2, some 0, 1, 1, 1, [], []⟩,
              ⟨2, 1, some 0, 0, 0, 1, [], []⟩]
    rng := 1 }

/-- The pile of three tokens after one `expand` on the root and one on its first child. -/
def pile_two_levels : Store Nat Nat Int Nat :=
  { nodes := [⟨3, 0, none, 0, 0, 0, [1], [2, 1]⟩, ⟨1, 2, some 0, 0, 0, 1, [2], [1]⟩,
              ⟨0, 1, some 1, 0, 0, 2, [], []⟩]
    rng := 2 }

/-! ## How `expand` and `update` act on the store -/

set_option linter.unusedSectionVars false

section

variable {State Action Value Rng : Type} [Inhabited Action] [Zero Value]

theorem getElem?_lt_length {α : Type} {l : List α} {i : Nat} {a : α} (h : l[i]? = some a) :
    i < l.length := by
  by_contra hn
  rw [List.getElem?_eq_none (Nat.le_of_not_lt hn)] at h
  cases h

theorem expand_invalid (E : Env State Action Rng) (σ : Store State Action Value Rng) (p : Nat)
    (h : σ.nodes[p]? = none) : TreeNodeT.expand E σ p = .error .invalid_pointer := by
  simp [TreeNodeT.expand, h]

theorem expand_full (E : Env State Action Rng) (σ : Store State Action Value Rng) (p : Nat)
    (nd : TreeNodeT State Action Value) (h : σ.nodes[p]? = some nd)
    (hf : nd.is_fully_expanded = true) : TreeNodeT.expand E σ p = .ok (σ, none) := by
  simp [TreeNodeT.expand, h, hf]

theorem expand_open (E : Env State Action Rng) (σ : Store State Action Value Rng) (p : Nat)
    (nd : TreeNodeT State Action Value) (h : σ.nodes[p]? = some nd)
    (hf : nd.is_fully_expanded = false) :
    TreeNodeT.expand E σ p =
      match vector_at E.stray (restock E σ.rng nd).1 nd.children.length with
      | .error f => .error f
      | .ok a => .ok (grown E σ p nd a, some σ.nodes.length) := by
  have hp : p < σ.nodes.length := getElem?_lt_length h
  by_cases he : nd.actions.isEmpty = true
  · simp only [TreeNodeT.expand, h, hf, he, restock, if_true, Bool.false_eq_true, if_false]
    simp only [List.getElem?_set_self hp]
    cases hv : vector_at E.stray (E.random_shuffle σ.rng (E.get_actions nd.state)).1
      nd.children.length with
    | error f => rfl
    | ok a =>
      simp [TreeNodeT.add_child_with_action, List.getElem?_set_self hp, grown, restock, he,
        offspring, TreeNodeT.new]
  · simp only [TreeNodeT.expand, h, hf, he, restock, Bool.false_eq_true, if_false]
    cases hv : vector_at E.stray nd.actions nd.children.length with
    | error f => rfl
    | ok a =>
      simp [TreeNodeT.add_child_with_action, h, grown, restock, he, offspring, TreeNodeT.new]

theorem is_fully_expanded_iff (nd : TreeNodeT State Action Value) :
    nd.is_fully_expanded = true ↔ nd.children ≠ [] ∧ nd.children.length = nd.actions.length := by
  cases hc : nd.children <;> simp [TreeNodeT.is_fully_expanded, hc]

theorem is_fully_expanded_eq_false_iff (nd : TreeNodeT State Action Value) :
    nd.is_fully_expanded = false ↔ nd.children = [] ∨ nd.children.length ≠ nd.actions.length := by
  rw [← Bool.not_eq_true, is_fully_expanded_iff]
  tauto

theorem grown_length (E : Env State Action Rng) (σ : Store State Action Value Rng) (p : Nat)
    (nd : TreeNodeT State Action Value) (a : Action) :
    (grown E σ p nd a).nodes.length = σ.nodes.length + 1 := by
  simp [grown]

theorem grown_getElem? (E : Env State Action Rng) (σ : Store State Action Value Rng) (p : Nat)
    (nd : TreeNodeT State Action Value) (a : Action) (hp : p < σ.nodes.length) (q : Nat) :
    (grown E σ p nd a).nodes[q]? =
      if q = σ.nodes.length then some (offspring E p nd a)
      else if q = p then
        some { nd with actions := (restock E σ.rng nd).1,
                       children := nd.children ++ [σ.nodes.length] }
      else σ.nodes[q]? := by
  unfold grown
  by_cases h1 : q = σ.nodes.length
  · subst h1
    simp [List.getElem?_append_right]
  · simp only [h1, if_false]
    by_cases h2 : q < σ.nodes.length
    · rw [List.getElem?_append_left (by simpa using h2)]
      by_cases h3 : q = p
      · subst h3
        simp [List.getElem?_set_self hp]
      · simp [h3, List.getElem?_set_ne (Ne.symm h3)]
    · have h4 : q ≠ p := by omega
      have h5 : σ.nodes.length + 1 ≤ q := by omega
      rw [List.getElem?_eq_none (by simpa using h5), if_neg h4,
        List.getElem?_eq_none (by omega)]

theorem expand_inv (E : Env State Action Rng) (σ σ' : Store State Action Value Rng) (p : Nat)
    (r : Option Nat) (h : TreeNodeT.expand E σ p = .ok (σ', r)) :
    ∃ nd, σ.nodes[p]? = some nd ∧
      ((nd.is_fully_expanded = true ∧ σ' = σ ∧ r = none) ∨
       (nd.is_fully_expanded = false ∧ ∃ a,
          vector_at E.stray (restock E σ.rng nd).1 nd.children.length = .ok a ∧
          σ' = grown E σ p nd a ∧ r = some σ.nodes.length)) := by
  cases hn : σ.nodes[p]? with
  | none => rw [expand_invalid E σ p hn] at h; cases h
  | some nd =>
    refine ⟨nd, rfl, ?_⟩
    cases hf : nd.is_fully_expanded with
    | true =>
      rw [expand_full E σ p nd hn hf] at h
      cases h
      exact Or.inl ⟨rfl, rfl, rfl⟩
    | false =>
      rw [expand_open E σ p nd hn hf] at h
      cases hv : vector_at E.stray (restock E σ.rng nd).1 nd.children.length with
      | error f => rw [hv] at h; cases h
      | ok a =>
        rw [hv] at h
        cases h
        exact Or.inr ⟨rfl, a, rfl, rfl, rfl⟩

theorem vector_at_of_getElem? (stray : Option Action) (v : List Action) (i : Nat) (a : Action)
    (h : v[i]? = some a) : vector_at stray v i = .ok a := by
  simp [vector_at, h]

theorem restock_stocked (E : Env State Action Rng) (g : Rng) (nd : TreeNodeT State Action Value)
    (h : nd.actions ≠ []) : restock E g nd = (nd.actions, g) := by
  simp [restock, h]

theorem restock_empty (E : Env State Action Rng) (g : Rng) (nd : TreeNodeT State Action Value)
    (h : nd.actions = []) : restock E g nd = E.random_shuffle g (E.get_actions nd.state) := by
  simp [restock, h]

theorem child_actions_grown (E : Env State Action Rng) (σ : Store State Action Value Rng)
    (p : Nat) (nd : TreeNodeT State Action Value) (a : Action) (hp : p < σ.nodes.length)
    (hch : ∀ c ∈ nd.children, p < c ∧ c < σ.nodes.length) :
    child_actions (grown E σ p nd a)
        { nd with actions := (restock E σ.rng nd).1, children := nd.children ++ [σ.nodes.length] }
      = child_actions σ nd ++ [a] := by
  unfold child_actions
  simp only [List.filterMap_append]
  congr 1
  · apply List.filterMap_congr
    intro c hc
    have h1 := hch c hc
    rw [grown_getElem? E σ p nd a hp c, if_neg (by omega), if_neg (by omega)]
  · simp [grown_getElem? E σ p nd a hp, offspring, TreeNodeT.get_action]

theorem range_shift {β : Type} (f : Nat → β) (b j : Nat) :
    f b :: (List.range j).map (fun i => f (b + 1 + i))
      = (List.range (j + 1)).map (fun i => f (b + i)) := by
  rw [List.range_succ_eq_map]
  simp only [List.map_cons, List.map_map, Nat.add_zero]
  congr 1
  apply List.map_congr_left
  intro i _
  simp only [Function.comp, Nat.succ_eq_add_one]
  congr 1
  omega

/-- Repeated `expand` on one node fills it: `j` calls on a node that lacks `j` children each
return the next fresh pointer, and leave the node with the action list it works with and one
child per action, in the order of that list. -/
theorem expand_times_fill (E : Env State Action Rng) (p : Nat) :
    ∀ (j : Nat) (σ : Store State Action Value Rng) (nd : TreeNodeT State Action Value),
      σ.nodes[p]? = some nd →
      nd.children.length + j = (restock E σ.rng nd).1.length →
      (nd.actions = [] → nd.children = []) →
      (∀ c ∈ nd.children, p < c ∧ c < σ.nodes.length) →
      child_actions σ nd = (restock E σ.rng nd).1.take nd.children.length →
      ∃ σ' nd', expand_times E σ p j
            = .ok (σ', (List.range j).map (fun i => some (σ.nodes.length + i))) ∧
        σ'.nodes[p]? = some nd' ∧
        nd'.actions = (restock E σ.rng nd).1 ∧
        nd'.children.length = (restock E σ.rng nd).1.length ∧
        child_actions σ' nd' = (restock E σ.rng nd).1 ∧
        nd'.children = nd.children ++ (List.range j).map (fun i => σ.nodes.length + i) := by
  intro j
  induction j with
  | zero =>
    intro σ nd h hj hfr hch hca
    refine ⟨σ, nd, rfl, h, ?_, by simpa using hj, ?_, by simp⟩
    · by_cases he : nd.actions = []
      · have hc := hfr he
        simp only [hc, List.length_nil, Nat.add_zero] at hj
        rw [List.eq_nil_of_length_eq_zero hj.symm, he]
      · simp [restock, he]
    · rw [hca, List.take_of_length_le]
      omega
  | succ j ih =>
    intro σ nd h hj hfr hch hca
    have hp : p < σ.nodes.length := getElem?_lt_length h
    have hlt : nd.children.length < (restock E σ.rng nd).1.length := by omega
    have hf : nd.is_fully_expanded = false := by
      rw [is_fully_expanded_eq_false_iff]
      by_cases he : nd.actions = []
      · exact Or.inl (hfr he)
      · right
        have : (restock E σ.rng nd).1 = nd.actions := by simp [restock, he]
        rw [this] at hlt
        omega
    obtain ⟨a, ha⟩ : ∃ a, (restock E σ.rng nd).1[nd.children.length]? = some a :=
      ⟨_, List.getElem?_eq_getElem hlt⟩
    have hex : TreeNodeT.expand E σ p = .ok (grown E σ p nd a, some σ.nodes.length) := by
      rw [expand_open E σ p nd h hf, vector_at_of_getElem? E.stray _ _ a ha]
    have hne : (restock E σ.rng nd).1 ≠ [] := by
      intro h0
      rw [h0] at hlt
      simp at hlt
    have hrs : restock E (grown E σ p nd a).rng
        ({ nd with actions := (restock E σ.rng nd).1,
                   children := nd.children ++ [σ.nodes.length] } : TreeNodeT State Action Value)
        = ((restock E σ.rng nd).1, (restock E σ.rng nd).2) :=
      restock_stocked E _ _ hne
    have hnode := grown_getElem? E σ p nd a hp p
    rw [if_neg (by omega), if_pos rfl] at hnode
    obtain ⟨σ', nd', h1, h2, h3, h4, h5, h6⟩ := ih (grown E σ p nd a) _ hnode
      (by rw [hrs]; simp only [List.length_append, List.length_singleton]; omega)
      (by intro h0; exact absurd h0 hne)
      (by
        intro c hc
        rw [grown_length]
        simp only [List.mem_append, List.mem_singleton] at hc
        rcases hc with hc | hc
        · have := hch c hc
          omega
        · omega)
      (by
        rw [child_actions_grown E σ p nd a hp hch, hrs, hca]
        simp only [List.length_append, List.length_singleton]
        rw [List.take_succ, ha]
        rfl)
    rw [hrs] at h3 h4 h5
    refine ⟨σ', nd', ?_, h2, h3, h4, h5, ?_⟩
    · simp only [expand_times, hex, h1, grown_length]
      rw [range_shift (fun i => some i)]
    · rw [h6, grown_length, List.append_assoc, List.singleton_append,
        range_shift (fun i => i)]

theorem update_invalid [Add Value] (σ : Store State Action Value Rng) (p : Nat) (v : Value)
    (h : σ.nodes[p]? = none) : TreeNodeT.update σ p v = .error .invalid_pointer := by
  simp [TreeNodeT.update, h]

theorem update_eq [Add Value] (σ : Store State Action Value Rng) (p : Nat)
    (nd : TreeNodeT State Action Value) (v : Value) (h : σ.nodes[p]? = some nd) :
    TreeNodeT.update σ p v = .ok (bumped σ p nd v) := by
  simp [TreeNodeT.update, h, bumped]

theorem update_inv [Add Value] (σ σ' : Store State Action Value Rng) (p : Nat) (v : Value)
    (h : TreeNodeT.update σ p v = .ok σ') :
    ∃ nd, σ.nodes[p]? = some nd ∧ σ' = bumped σ p nd v := by
  cases hn : σ.nodes[p]? with
  | none => rw [update_invalid σ p v hn] at h; cases h
  | some nd =>
    rw [update_eq σ p nd v hn] at h
    cases h
    exact ⟨nd, rfl, rfl⟩

theorem bumped_getElem? [Add Value] (σ : Store State Action Value Rng) (p : Nat)
    (nd : TreeNodeT State Action Value) (v : Value) (hp : p < σ.nodes.length) (q : Nat) :
    (bumped σ p nd v).nodes[q]? =
      if q = p then some { nd with value := nd.value + v, num_visits := wrap_int (nd.num_visits + 1) }
      else σ.nodes[q]? := by
  unfold bumped
  by_cases h : q = p
  · subst h
    simp [List.getElem?_set_self hp]
  · simp [h, List.getElem?_set_ne (Ne.symm h)]

/-- A property of the store that each successful `expand` and each `update` keeps holds after
every sequence of calls that runs through. -/
theorem run_induction [Add Value] (E : Env State Action Rng)
    (P : Store State Action Value Rng → Prop)
    (hexp : ∀ σ p nd a, P σ → σ.nodes[p]? = some nd → nd.is_fully_expanded = false →
      vector_at E.stray (restock E σ.rng nd).1 nd.children.length = .ok a →
      P (grown E σ p nd a))
    (hupd : ∀ σ p nd v, P σ → σ.nodes[p]? = some nd → P (bumped σ p nd v)) :
    ∀ (calls : List (Call Value)) (σ σ' : Store State Action Value Rng),
      P σ → run E σ calls = .ok σ' → P σ' := by
  intro calls
  induction calls with
  | nil =>
    intro σ σ' hP h
    simp only [run] at h
    cases h
    exact hP
  | cons c cs ih =>
    intro σ σ' hP h
    simp only [run] at h
    cases hc : perform E σ c with
    | error f => rw [hc] at h; cases h
    | ok σ1 =>
      rw [hc] at h
      refine ih σ1 σ' ?_ h
      cases c with
      | expand p =>
        simp only [perform] at hc
        cases hx : TreeNodeT.expand E σ p with
        | error f => rw [hx] at hc; cases hc
        | ok res =>
          obtain ⟨σ2, r⟩ := res
          rw [hx] at hc
          cases hc
          obtain ⟨nd, hn, hcase⟩ := expand_inv E σ σ1 p r hx
          rcases hcase with ⟨_, h2, _⟩ | ⟨hf, a, hv, h2, _⟩
          · rw [h2]; exact hP
          · rw [h2]; exact hexp σ p nd a hP hn hf hv
      | update p v =>
        simp only [perform] at hc
        obtain ⟨nd, hn, h2⟩ := update_inv σ σ1 p v hc
        rw [h2]
        exact hupd σ p nd v hP hn

theorem wrap_int_of_range (x : Int) (h1 : -2147483648 ≤ x) (h2 : x ≤ 2147483647) :
    wrap_int x = x := by
  unfold wrap_int
  omega

theorem wrap_int_range (x : Int) : -2147483648 ≤ wrap_int x ∧ wrap_int x ≤ 2147483647 := by
  unfold wrap_int
  omega

theorem wrap_int_succ (x : Int) (k : Int) :
    wrap_int (wrap_int (x + 1) + k) = wrap_int (x + (k + 1)) := by
  unfold wrap_int
  omega

theorem update_all_acc [Add Value] (p : Nat) :
    ∀ (vs : List Value) (σ : Store State Action Value Rng) (nd : TreeNodeT State Action Value),
      σ.nodes[p]? = some nd →
      -2147483648 ≤ nd.num_visits → nd.num_visits ≤ 2147483647 →
      ∃ σ' nd', update_all σ p vs = .ok σ' ∧ σ'.nodes[p]? = some nd' ∧
        nd'.num_visits = wrap_int (nd.num_visits + vs.length) ∧
        nd'.value = vs.foldl (fun acc v => acc + v) nd.value := by
  intro vs
  induction vs with
  | nil =>
    intro σ nd h hlo hhi
    refine ⟨σ, nd, rfl, h, ?_, rfl⟩
    simp only [List.length_nil, Nat.cast_zero, Int.add_zero]
    exact (wrap_int_of_range _ hlo hhi).symm
  | cons v vs ih =>
    intro σ nd h _ _
    have hp : p < σ.nodes.length := getElem?_lt_length h
    have hnode := bumped_getElem? σ p nd v hp p
    rw [if_pos rfl] at hnode
    obtain ⟨σ', nd', h1, h2, h3, h4⟩ := ih (bumped σ p nd v) _ hnode
      (wrap_int_range _).1 (wrap_int_range _).2
    refine ⟨σ', nd', ?_, h2, ?_, ?_⟩
    · simp only [update_all, update_eq σ p nd v h, h1]
    · rw [h3]
      simp only [List.length_cons, Nat.cast_add, Nat.cast_one]
      exact wrap_int_succ _ _
    · rw [h4]
      rfl

theorem linked_plant (s : State) (g : Rng) :
    Linked (plant s g : Store State Action Value Rng) := by
  intro q x hq c hc
  have hq0 : q < 1 := by simpa [plant] using getElem?_lt_length hq
  have h0 : q = 0 := by omega
  subst h0
  simp only [plant, List.getElem?_cons_zero, Option.some.injEq] at hq
  subst hq
  simp [TreeNodeT.new] at hc

theorem linked_grown (E : Env State Action Rng) (σ : Store State Action Value Rng) (p : Nat)
    (nd : TreeNodeT State Action Value) (a : Action) (hL : Linked σ)
    (h : σ.nodes[p]? = some nd) : Linked (grown E σ p nd a) := by
  have hp : p < σ.nodes.length := getElem?_lt_length h
  intro q x hq c hc
  rw [grown_getElem? E σ p nd a hp q] at hq
  by_cases h1 : q = σ.nodes.length
  · rw [if_pos h1] at hq
    cases hq
    simp [offspring] at hc
  · rw [if_neg h1] at hq
    by_cases h2 : q = p
    · rw [if_pos h2] at hq
      cases hq
      subst h2
      simp only [List.mem_append, List.mem_singleton] at hc
      rcases hc with hc | hc
      · obtain ⟨hlt, ch, hch, hpar, hdep⟩ := hL q nd h c hc
        have hcl : c < σ.nodes.length := getElem?_lt_length hch
        refine ⟨hlt, ch, ?_, hpar, hdep⟩
        rw [grown_getElem? E σ q nd a hp c, if_neg (by omega), if_neg (by omega), hch]
      · subst hc
        refine ⟨hp, offspring E q nd a, ?_, rfl, rfl⟩
        rw [grown_getElem? E σ q nd a hp _, if_pos rfl]
    · rw [if_neg h2] at hq
      obtain ⟨hlt, ch, hch, hpar, hdep⟩ := hL q x hq c hc
      have hcl : c < σ.nodes.length := getElem?_lt_length hch
      refine ⟨hlt, ?_⟩
      by_cases h3 : c = p
      · subst h3
        rw [h] at hch
        cases hch
        refine ⟨{ nd with actions := (restock E σ.rng nd).1,
                          children := nd.children ++ [σ.nodes.length] }, ?_, hpar, hdep⟩
        rw [grown_getElem? E σ c nd a hp c, if_neg (by omega), if_pos rfl]
      · refine ⟨ch, ?_, hpar, hdep⟩
        rw [grown_getElem? E σ p nd a hp c, if_neg (by omega), if_neg h3, hch]

theorem linked_bumped [Add Value] (σ : Store State Action Value Rng) (p : Nat)
    (nd : TreeNodeT State Action Value) (v : Value) (hL : Linked σ)
    (h : σ.nodes[p]? = some nd) : Linked (bumped σ p nd v) := by
  have hp : p < σ.nodes.length := getElem?_lt_length h
  have key : ∀ (q : Nat) (x : TreeNodeT State Action Value), σ.nodes[q]? = some x →
      ∃ x', (bumped σ p nd v).nodes[q]? = some x' ∧ x'.parent = x.parent ∧
        x'.depth = x.depth ∧ x'.children = x.children := by
    intro q x hq
    rw [bumped_getElem? σ p nd v hp q]
    by_cases h1 : q = p
    · subst h1
      rw [h] at hq
      cases hq
      exact ⟨{ nd with value := nd.value + v, num_visits := wrap_int (nd.num_visits + 1) },
        by rw [if_pos rfl], rfl, rfl, rfl⟩
    · exact ⟨x, by rw [if_neg h1, hq], rfl, rfl, rfl⟩
  intro q x hq c hc
  rw [bumped_getElem? σ p nd v hp q] at hq
  have main : ∀ y : TreeNodeT State Action Value, σ.nodes[q]? = some y →
      x.children = y.children → x.depth = y.depth →
      q < c ∧ ∃ ch : TreeNodeT State Action Value,
        (bumped σ p nd v).nodes[c]? = some ch ∧ ch.parent = some q ∧ ch.depth = x.depth + 1 := by
    intro y hy hcy hdy
    obtain ⟨hlt, ch, hch, hpar, hdep⟩ := hL q y hy c (hcy ▸ hc)
    obtain ⟨ch', h1, h2, h3, _⟩ := key c ch hch
    exact ⟨hlt, ch', h1, by rw [h2, hpar], by rw [h3, hdep, hdy]⟩
  by_cases h1 : q = p
  · rw [if_pos h1] at hq
    cases hq
    subst h1
    exact main nd h rfl rfl
  · rw [if_neg h1] at hq
    exact main x hq rfl rfl

theorem linked_run [Add Value] (E : Env State Action Rng) (s : State) (g : Rng)
    (calls : List (Call Value)) (σ : Store State Action Value Rng)
    (h : run E (plant s g) calls = .ok σ) : Linked σ :=
  run_induction E Linked (fun σ p nd a hP hn _ _ => linked_grown E σ p nd a hP hn)
    (fun σ p nd v hP hn => linked_bumped σ p nd v hP hn) calls _ σ (linked_plant s g) h

theorem root_depth_run [Add Value] (E : Env State Action Rng) (s : State) (g : Rng)
    (calls : List (Call Value)) (σ : Store State Action Value Rng)
    (h : run E (plant s g) calls = .ok σ) :
    ∃ r : TreeNodeT State Action Value, σ.nodes[0]? = some r ∧ r.depth = 0 ∧ r.parent = none := by
  refine run_induction E
    (fun τ => ∃ r : TreeNodeT State Action Value, τ.nodes[0]? = some r ∧ r.depth = 0 ∧
      r.parent = none) ?_ ?_ calls (plant s g) σ ⟨TreeNodeT.new s none, rfl, rfl, rfl⟩ h
  · intro τ p nd a hP hn _ _
    obtain ⟨r, h1, h2, h3⟩ := hP
    have hp : p < τ.nodes.length := getElem?_lt_length hn
    have h0 : 0 < τ.nodes.length := getElem?_lt_length h1
    show ∃ r : TreeNodeT State Action Value, (grown E τ p nd a).nodes[0]? = some r ∧ _
    rw [grown_getElem? E τ p nd a hp 0, if_neg (by omega)]
    by_cases hp0 : 0 = p
    · subst hp0
      rw [hn] at h1
      cases h1
      exact ⟨{ nd with actions := (restock E τ.rng nd).1,
                       children := nd.children ++ [τ.nodes.length] },
        by rw [if_pos rfl], h2, h3⟩
    · exact ⟨r, by rw [if_neg hp0, h1], h2, h3⟩
  · intro τ p nd v hP hn
    obtain ⟨r, h1, h2, h3⟩ := hP
    have hp : p < τ.nodes.length := getElem?_lt_length hn
    show ∃ r : TreeNodeT State Action Value, (bumped τ p nd v).nodes[0]? = some r ∧ _
    rw [bumped_getElem? τ p nd v hp 0]
    by_cases hp0 : 0 = p
    · subst hp0
      rw [hn] at h1
      cases h1
      exact ⟨{ nd with value := nd.value + v, num_visits := wrap_int (nd.num_visits + 1) },
        by rw [if_pos rfl], h2, h3⟩
    · exact ⟨r, by rw [if_neg hp0, h1], h2, h3⟩

theorem get_child_mem (nd : TreeNodeT State Action Value) (i : Int) (c : Nat)
    (h : nd.get_child i = .ok c) : c ∈ nd.children := by
  unfold TreeNodeT.get_child at h
  by_cases hi : i < 0
  · rw [if_pos hi] at h; cases h
  · rw [if_neg hi] at h
    cases hc : nd.children[i.toNat]? with
    | none => rw [hc] at h; cases h
    | some d =>
      rw [hc] at h
      cases h
      exact List.getElem?_mem hc

theorem descend_depth (σ : Store State Action Value Rng) (hL : Linked σ) :
    ∀ (idxs : List Int) (p q : Nat) (nd : TreeNodeT State Action Value),
      σ.nodes[p]? = some nd → descend σ p idxs = .ok q →
      ∃ x : TreeNodeT State Action Value, σ.nodes[q]? = some x ∧
        x.depth = nd.depth + idxs.length := by
  intro idxs
  induction idxs with
  | nil =>
    intro p q nd h hd
    simp only [descend] at hd
    cases hd
    exact ⟨nd, h, by simp⟩
  | cons i is ih =>
    intro p q nd h hd
    simp only [descend, h] at hd
    cases hg : nd.get_child i with
    | error f => rw [hg] at hd; cases hd
    | ok c =>
      rw [hg] at hd
      obtain ⟨_, ch, hch, _, hdep⟩ := hL p nd h c (get_child_mem nd i c hg)
      obtain ⟨x, hx, hxd⟩ := ih c q ch hch hd
      refine ⟨x, hx, ?_⟩
      rw [hxd, hdep]
      simp only [List.length_cons, Nat.cast_add, Nat.cast_one]
      omega

theorem vector_at_inv (stray : Option Action) (v : List Action) (i : Nat) (a : Action)
    (h : vector_at stray v i = .ok a) : v[i]? = some a ∨ (v.length ≤ i ∧ stray = some a) := by
  unfold vector_at at h
  cases hv : v[i]? with
  | some b =>
    rw [hv] at h
    cases h
    exact Or.inl rfl
  | none =>
    rw [hv] at h
    cases hs : stray with
    | none => rw [hs] at h; cases h
    | some b =>
      rw [hs] at h
      cases h
      exact Or.inr ⟨List.getElem?_eq_none_iff.mp hv, rfl⟩

/-- Where no read past the end of `actions` can go on (it traps, or the node's state has a legal
action and the shuffle permutes), a node never has more children than stored actions, after any
sequence of calls that runs through. -/
theorem children_le_actions_run [Add Value] (E : Env State Action Rng)
    (hperm : ∀ g l, (E.random_shuffle g l).1.Perm l) (s : State) (g : Rng)
    (calls : List (Call Value)) (σ : Store State Action Value Rng)
    (h : run E (plant s g) calls = .ok σ) :
    ∀ (q : Nat) (x : TreeNodeT State Action Value), σ.nodes[q]? = some x →
      (E.stray = none ∨ E.get_actions x.state ≠ []) →
      x.children.length ≤ x.actions.length := by
  refine run_induction E
    (fun τ => ∀ (q : Nat) (x : TreeNodeT State Action Value), τ.nodes[q]? = some x →
      (E.stray = none ∨ E.get_actions x.state ≠ []) → x.children.length ≤ x.actions.length)
    ?_ ?_ calls (plant s g) σ ?_ h
  · intro τ p nd a hP hn hf hv q x hq hcond
    have hp : p < τ.nodes.length := getElem?_lt_length hn
    rw [grown_getElem? E τ p nd a hp q] at hq
    by_cases h1 : q = τ.nodes.length
    · rw [if_pos h1] at hq
      cases hq
      simp [offspring]
    · rw [if_neg h1] at hq
      by_cases h2 : q = p
      · rw [if_pos h2] at hq
        cases hq
        simp only [List.length_append, List.length_singleton]
        rcases vector_at_inv _ _ _ _ hv with hin | ⟨hout, hst⟩
        · exact getElem?_lt_length hin
        · exfalso
          have hga : E.get_actions nd.state ≠ [] := by
            rcases hcond with hc | hc
            · rw [hst] at hc; cases hc
            · exact hc
          have hle := hP p nd hn (Or.inr hga)
          rw [is_fully_expanded_eq_false_iff] at hf
          by_cases he : nd.actions = []
          · rw [restock_empty E τ.rng nd he, (hperm _ _).length_eq] at hout
            rw [he] at hle
            have : 0 < (E.get_actions nd.state).length := List.length_pos.mpr hga
            simp only [List.length_nil] at hle
            omega
          · rw [restock_stocked E τ.rng nd he] at hout
            simp only at hout
            have hk : nd.children.length = nd.actions.length := by omega
            rcases hf with hf | hf
            · rw [hf] at hk
              exact he (List.eq_nil_of_length_eq_zero hk.symm)
            · exact hf hk
      · rw [if_neg h2] at hq
        exact hP q x hq hcond
  · intro τ p nd v hP hn q x hq hcond
    have hp : p < τ.nodes.length := getElem?_lt_length hn
    rw [bumped_getElem? τ p nd v hp q] at hq
    by_cases h1 : q = p
    · rw [if_pos h1] at hq
      cases hq
      exact hP p nd hn hcond
    · rw [if_neg h1] at hq
      exact hP q x hq hcond
  · intro q x hq _
    have hq0 : q < 1 := by simpa [plant] using getElem?_lt_length hq
    have h0 : q = 0 := by omega
    subst h0
    simp only [plant, List.getElem?_cons_zero, Option.some.injEq] at hq
    subst hq
    simp [TreeNodeT.new]

theorem perform_inv [Add Value] (E : Env State Action Rng)
    (σ σ' : Store State Action Value Rng) (c : Call Value) (h : perform E σ c = .ok σ') :
    (∃ p nd, c = Call.expand p ∧ σ.nodes[p]? = some nd ∧
      ((nd.is_fully_expanded = true ∧ σ' = σ) ∨
       (nd.is_fully_expanded = false ∧ ∃ a,
          vector_at E.stray (restock E σ.rng nd).1 nd.children.length = .ok a ∧
          σ' = grown E σ p nd a))) ∨
    (∃ p nd v, c = Call.update p v ∧ σ.nodes[p]? = some nd ∧ σ' = bumped σ p nd v) := by
  cases c with
  | expand p =>
    left
    simp only [perform] at h
    cases hx : TreeNodeT.expand E σ p with
    | error f => rw [hx] at h; cases h
    | ok res =>
      obtain ⟨σ2, r⟩ := res
      rw [hx] at h
      cases h
      obtain ⟨nd, hn, hcase⟩ := expand_inv E σ σ' p r hx
      refine ⟨p, nd, rfl, hn, ?_⟩
      rcases hcase with ⟨hf, h2, _⟩ | ⟨hf, a, hv, h2, _⟩
      · exact Or.inl ⟨hf, h2⟩
      · exact Or.inr ⟨hf, a, hv, h2⟩
  | update p v =>
    right
    simp only [perform] at h
    obtain ⟨nd, hn, h2⟩ := update_inv σ σ' p v h
    exact ⟨p, nd, v, rfl, hn, h2⟩

/-- A property of the store kept by every call of a sequence holds after the sequence. -/
theorem run_preserves [Add Value] (E : Env State Action Rng)
    (P : Store State Action Value Rng → Prop) :
    ∀ (calls : List (Call Value)),
      (∀ c ∈ calls, ∀ σ σ' : Store State Action Value Rng,
        P σ → perform E σ c = .ok σ' → P σ') →
      ∀ σ σ' : Store State Action Value Rng, P σ → run E σ calls = .ok σ' → P σ' := by
  intro calls
  induction calls with
  | nil =>
    intro _ σ σ' hP h
    simp only [run] at h
    cases h
    exact hP
  | cons c cs ih =>
    intro hstep σ σ' hP h
    simp only [run] at h
    cases hc : perform E σ c with
    | error f => rw [hc] at h; cases h
    | ok σ1 =>
      rw [hc] at h
      exact ih (fun d hd => hstep d (List.mem_cons_of_mem c hd)) σ1 σ'
        (hstep c (List.mem_cons_self c cs) σ σ1 hP hc) h

/-- The index `expand` uses is in range on a node that is not fully expanded, has no more
children than stored actions, and whose state has a legal action. -/
theorem restock_in_range (E : Env State Action Rng)
    (hperm : ∀ g l, (E.random_shuffle g l).1.Perm l) (g : Rng)
    (nd : TreeNodeT State Action Value) (hga : E.get_actions nd.state ≠ [])
    (hle : nd.children.length ≤ nd.actions.length) (hf : nd.is_fully_expanded = false) :
    nd.children.length < (restock E g nd).1.length := by
  rw [is_fully_expanded_eq_false_iff] at hf
  by_cases he : nd.actions = []
  · rw [restock_empty E g nd he, (hperm _ _).length_eq]
    rw [he] at hle
    have : 0 < (E.get_actions nd.state).length := List.length_pos.mpr hga
    simp only [List.length_nil] at hle
    omega
  · rw [restock_stocked E g nd he]
    simp only
    rcases hf with hf | hf
    · rw [hf]
      exact List.length_pos.mpr he
    · omega

theorem parent_lt_run [Add Value] (E : Env State Action Rng) (s : State) (g : Rng)
    (calls : List (Call Value)) (σ : Store State Action Value Rng)
    (h : run E (plant s g) calls = .ok σ) :
    ∀ (p q : Nat) (x : TreeNodeT State Action Value),
      σ.nodes[p]? = some x → x.parent = some q → q < p := by
  refine run_induction E
    (fun τ => ∀ (p q : Nat) (x : TreeNodeT State Action Value),
      τ.nodes[p]? = some x → x.parent = some q → q < p)
    ?_ ?_ calls (plant s g) σ ?_ h
  · intro τ p nd a hP hn _ _ r q x hr hpar
    have hp : p < τ.nodes.length := getElem?_lt_length hn
    rw [grown_getElem? E τ p nd a hp r] at hr
    by_cases h1 : r = τ.nodes.length
    · rw [if_pos h1] at hr
      cases hr
      simp only [offspring, Option.some.injEq] at hpar
      omega
    · rw [if_neg h1] at hr
      by_cases h2 : r = p
      · rw [if_pos h2] at hr
        cases hr
        subst h2
        exact hP r q nd hn hpar
      · rw [if_neg h2] at hr
        exact hP r q x hr hpar
  · intro τ p nd v hP hn r q x hr hpar
    have hp : p < τ.nodes.length := getElem?_lt_length hn
    rw [bumped_getElem? τ p nd v hp r] at hr
    by_cases h1 : r = p
    · rw [if_pos h1] at hr
      cases hr
      subst h1
      exact hP r q nd hn hpar
    · rw [if_neg h1] at hr
      exact hP r q x hr hpar
  · intro p q x hp hpar
    have hq0 : p < 1 := by simpa [plant] using getElem?_lt_length hp
    have h0 : p = 0 := by omega
    subst h0
    simp only [plant, List.getElem?_cons_zero, Option.some.injEq] at hp
    subst hp
    simp [TreeNodeT.new] at hpar

theorem expand_times_full (E : Env State Action Rng) (σ : Store State Action Value Rng)
    (p : Nat) (nd : TreeNodeT State Action Value) (h : σ.nodes[p]? = some nd)
    (hf : nd.is_fully_expanded = true) :
    ∀ n : Nat, expand_times E σ p n = .ok (σ, List.replicate n none) := by
  intro n
  induction n with
  | zero => rfl
  | succ n ih =>
    simp only [expand_times, expand_full E σ p nd h hf, ih, List.replicate_succ]

theorem run_append [Add Value] (E : Env State Action Rng) :
    ∀ (pre : List (Call Value)) (σ σ1 : Store State Action Value Rng) (c : Call Value),
      run E σ pre = .ok σ1 → run E σ (pre ++ [c]) = perform E σ1 c := by
  intro pre
  induction pre with
  | nil =>
    intro σ σ1 c h
    simp only [run] at h
    cases h
    simp only [List.nil_append, run]
    cases perform E σ c <;> rfl
  | cons d ds ih =>
    intro σ σ1 c h
    simp only [run] at h
    simp only [List.cons_append, run]
    cases hd : perform E σ d with
    | error f => rw [hd] at h; cases h
    | ok σ2 =>
      rw [hd] at h
      exact ih σ2 σ1 c h

/-- Induction over the stores a sequence of calls passes through, each known to be reached from
the start. -/
theorem run_induction_reach [Add Value] (E : Env State Action Rng)
    (σ0 : Store State Action Value Rng) (P : Store State Action Value Rng → Prop)
    (hstep : ∀ (pre : List (Call Value)) (σ σ' : Store State Action Value Rng) (c : Call Value),
      run E σ0 pre = .ok σ → P σ → perform E σ c = .ok σ' → P σ') :
    ∀ (calls pre : List (Call Value)) (σ1 σ : Store State Action Value Rng),
      run E σ0 pre = .ok σ1 → P σ1 → run E σ1 calls = .ok σ → P σ := by
  intro calls
  induction calls with
  | nil =>
    intro pre σ1 σ _ hP h
    simp only [run] at h
    cases h
    exact hP
  | cons c cs ih =>
    intro pre σ1 σ hpre hP h
    simp only [run] at h
    cases hc : perform E σ1 c with
    | error f => rw [hc] at h; cases h
    | ok σ2 =>
      rw [hc] at h
      refine ih (pre ++ [c]) σ2 σ ?_ (hstep pre σ1 σ2 c hpre hP hc) h
      rw [run_append E pre σ0 σ1 c hpre, hc]

/-- What one call does to a node that was there before it: the node stays, with its state, its
action and its earlier children; its action list changes only when it is empty and the call is
an `expand` on this very node, which stores the shuffled legal actions. -/
theorem step_old [Add Value] (E : Env State Action Rng)
    (σ σ' : Store State Action Value Rng) (c : Call Value) (q : Nat)
    (x : TreeNodeT State Action Value)
    (h : perform E σ c = .ok σ') (hq : σ.nodes[q]? = some x) :
    ∃ x', σ'.nodes[q]? = some x' ∧ x'.state = x.state ∧ x'.action = x.action ∧
      (x'.actions = x.actions ∨
        (c = Call.expand q ∧ x.actions = [] ∧
          x'.actions = (E.random_shuffle σ.rng (E.get_actions x.state)).1)) := by
  have hql : q < σ.nodes.length := getElem?_lt_length hq
  rcases perform_inv E σ σ' c h with
    ⟨p, nd, hc, hn, ⟨_, h2⟩ | ⟨_, a, _, h2⟩⟩ | ⟨p, nd, v, hc, hn, h2⟩
  · subst h2
    exact ⟨x, hq, rfl, rfl, Or.inl rfl⟩
  · subst h2
    have hp : p < σ.nodes.length := getElem?_lt_length hn
    rw [grown_getElem? E σ p nd a hp q, if_neg (by omega)]
    by_cases h1 : q = p
    · subst h1
      rw [hn] at hq
      cases hq
      refine ⟨{ x with actions := (restock E σ.rng x).1,
                       children := x.children ++ [σ.nodes.length] },
        by rw [if_pos rfl], rfl, rfl, ?_⟩
      by_cases he : x.actions = []
      · right
        exact ⟨hc, he, by rw [restock_empty E σ.rng x he]⟩
      · left
        show (restock E σ.rng x).1 = x.actions
        rw [restock_stocked E σ.rng x he]
    · exact ⟨x, by rw [if_neg h1, hq], rfl, rfl, Or.inl rfl⟩
  · subst h2
    have hp : p < σ.nodes.length := getElem?_lt_length hn
    rw [bumped_getElem? σ p nd v hp q]
    by_cases h1 : q = p
    · subst h1
      rw [hn] at hq
      cases hq
      exact ⟨{ x with value := x.value + v, num_visits := wrap_int (x.num_visits + 1) },
        by rw [if_pos rfl], rfl, rfl, Or.inl rfl⟩
    · exact ⟨x, by rw [if_neg h1, hq], rfl, rfl, Or.inl rfl⟩

/-- A node that one call allocates starts without stored actions and without children. -/
theorem step_new [Add Value] (E : Env State Action Rng)
    (σ σ' : Store State Action Value Rng) (c : Call Value) (q : Nat)
    (x' : TreeNodeT State Action Value)
    (h : perform E σ c = .ok σ') (hq : σ.nodes[q]? = none) (hq' : σ'.nodes[q]? = some x') :
    x'.actions = [] ∧ x'.children = [] := by
  have hql : σ.nodes.length ≤ q := List.getElem?_eq_none_iff.mp hq
  rcases perform_inv E σ σ' c h with
    ⟨p, nd, _, hn, ⟨_, h2⟩ | ⟨_, a, _, h2⟩⟩ | ⟨p, nd, v, _, hn, h2⟩
  · subst h2
    rw [hq] at hq'
    cases hq'
  · subst h2
    have hp : p < σ.nodes.length := getElem?_lt_length hn
    rw [grown_getElem? E σ p nd a hp q] at hq'
    by_cases h1 : q = σ.nodes.length
    · rw [if_pos h1] at hq'
      cases hq'
      exact ⟨rfl, rfl⟩
    · rw [if_neg h1, if_neg (by omega), hq] at hq'
      cases hq'
  · subst h2
    have hp : p < σ.nodes.length := getElem?_lt_length hn
    rw [bumped_getElem? σ p nd v hp q, if_neg (by omega), hq] at hq'
    cases hq'

/-- As long as no `expand` is called on it, a node has no stored actions. -/
theorem actions_empty_before [Add Value] (E : Env State Action Rng) (s : State) (g : Rng)
    (q : Nat) (pre : List (Call Value)) (σ : Store State Action Value Rng)
    (hpre : ∀ c ∈ pre, c ≠ Call.expand q) (h : run E (plant s g) pre = .ok σ) :
    ∀ x : TreeNodeT State Action Value, σ.nodes[q]? = some x → x.actions = [] := by
  refine run_preserves E
    (fun τ => ∀ x : TreeNodeT State Action Value, τ.nodes[q]? = some x → x.actions = [])
    pre ?_ (plant s g) σ ?_ h
  · intro c hc τ τ' hP hstep x' hx'
    cases hq : τ.nodes[q]? with
    | none => exact (step_new E τ τ' c q x' hstep hq hx').1
    | some x =>
      obtain ⟨x'', h1, _, _, h2⟩ := step_old E τ τ' c q x hstep hq
      rw [hx'] at h1
      cases h1
      rcases h2 with h2 | ⟨h2, _, _⟩
      · rw [h2]
        exact hP x hq
      · exact absurd h2 (hpre c hc)
  · intro x hx
    have hq0 : q < 1 := by simpa [plant] using getElem?_lt_length hx
    have h0 : q = 0 := by omega
    subst h0
    simp only [plant, List.getElem?_cons_zero, Option.some.injEq] at hx
    subst hx
    rfl

/-- Once a node stores a permutation of the legal actions of its state, no call changes its
stored list or its state. -/
theorem actions_kept [Add Value] (E : Env State Action Rng)
    (hperm : ∀ g l, (E.random_shuffle g l).1.Perm l) (q : Nat) (s0 : State) (L : List Action)
    (hL : L.Perm (E.get_actions s0)) (calls : List (Call Value))
    (σ σ' : Store State Action Value Rng)
    (hq : ∃ x : TreeNodeT State Action Value, σ.nodes[q]? = some x ∧ x.actions = L ∧ x.state = s0)
    (h : run E σ calls = .ok σ') :
    ∃ x : TreeNodeT State Action Value, σ'.nodes[q]? = some x ∧ x.actions = L ∧ x.state = s0 := by
  refine run_preserves E
    (fun τ => ∃ x : TreeNodeT State Action Value, τ.nodes[q]? = some x ∧ x.actions = L ∧
      x.state = s0) calls ?_ σ σ' hq h
  intro c _ τ τ' hP hstep
  obtain ⟨x, hx, hxa, hxs⟩ := hP
  obtain ⟨x', h1, h2, _, h3⟩ := step_old E τ τ' c q x hstep hx
  refine ⟨x', h1, ?_, by rw [h2, hxs]⟩
  rcases h3 with h3 | ⟨_, h4, h5⟩
  · rw [h3, hxa]
  · rw [h5, hxs, ← hxa, h4]
    rw [hxa] at h4
    rw [h4] at hL
    have hga : E.get_actions s0 = [] := List.Perm.eq_nil hL.symm
    rw [hga]
    exact List.Perm.eq_nil (hperm _ _)

theorem getElem?_snoc_inv {α : Type} (l : List α) (a d : α) (i : Nat)
    (h : (l ++ [a])[i]? = some d) : l[i]? = some d ∨ (i = l.length ∧ d = a) := by
  by_cases hi : i < l.length
  · rw [List.getElem?_append_left hi] at h
    exact Or.inl h
  · rw [List.getElem?_append_right (by omega)] at h
    have hlt : i - l.length < 1 := by simpa using getElem?_lt_length h
    have h0 : i - l.length = 0 := by omega
    rw [h0] at h
    simp only [List.getElem?_cons_zero, Option.some.injEq] at h
    exact Or.inr ⟨by omega, h.symm⟩

/-- Where no read past the end of `actions` can go on (it traps, or the node's state has a legal
action and the shuffle permutes), the `i`-th child of a node carries the `i`-th stored action,
after any sequence of calls that runs through. -/
theorem child_slots_run [Add Value] (E : Env State Action Rng)
    (hperm : ∀ g l, (E.random_shuffle g l).1.Perm l) (s : State) (g : Rng)
    (calls : List (Call Value)) (σ : Store State Action Value Rng)
    (h : run E (plant s g) calls = .ok σ) :
    ∀ (q : Nat) (x : TreeNodeT State Action Value), σ.nodes[q]? = some x →
      (E.stray = none ∨ E.get_actions x.state ≠ []) →
      ∀ (i c : Nat), x.children[i]? = some c →
        ∃ ch : TreeNodeT State Action Value,
          σ.nodes[c]? = some ch ∧ x.actions[i]? = some ch.action := by
  refine run_induction_reach E (plant s g)
    (fun τ => ∀ (q : Nat) (x : TreeNodeT State Action Value), τ.nodes[q]? = some x →
      (E.stray = none ∨ E.get_actions x.state ≠ []) →
      ∀ (i c : Nat), x.children[i]? = some c →
        ∃ ch : TreeNodeT State Action Value,
          τ.nodes[c]? = some ch ∧ x.actions[i]? = some ch.action)
    ?_ calls [] (plant s g) σ rfl ?_ h
  · intro pre τ τ' c hreach hP hstep q x' hq' hcond i d hd
    have carry : ∀ (y : TreeNodeT State Action Value), τ.nodes[q]? = some y →
        y.children = x'.children → y.state = x'.state → y.actions = x'.actions →
        ∃ ch : TreeNodeT State Action Value,
          τ'.nodes[d]? = some ch ∧ x'.actions[i]? = some ch.action := by
      intro y hy hyc hys hya
      obtain ⟨ch, hch, hact⟩ := hP q y hy (hys ▸ hcond) i d (hyc ▸ hd)
      obtain ⟨ch', h1, _, h2, _⟩ := step_old E τ τ' c d ch hstep hch
      exact ⟨ch', h1, by rw [← hya, hact, h2]⟩
    rcases perform_inv E τ τ' c hstep with
      ⟨p, nd, _, hn, ⟨_, h2⟩ | ⟨hf, a, hv, h2⟩⟩ | ⟨p, nd, v, _, hn, h2⟩
    · subst h2
      exact hP q x' hq' hcond i d hd
    · have hp : p < τ.nodes.length := getElem?_lt_length hn
      have hq'' := hq'
      rw [h2, grown_getElem? E τ p nd a hp q] at hq''
      by_cases h1 : q = τ.nodes.length
      · rw [if_pos h1] at hq''
        cases hq''
        simp [offspring] at hd
      · rw [if_neg h1] at hq''
        by_cases h3 : q = p
        · rw [if_pos h3] at hq''
          cases hq''
          subst h3
          rcases getElem?_snoc_inv _ _ _ _ hd with hold | ⟨hi, hdl⟩
          · obtain ⟨ch, hch, hact⟩ := hP q nd hn hcond i d hold
            obtain ⟨ch', h4, _, h5, _⟩ := step_old E τ τ' c d ch hstep hch
            refine ⟨ch', h4, ?_⟩
            have hne : nd.actions ≠ [] := by
              intro h0
              rw [h0] at hact
              simp at hact
            show (restock E τ.rng nd).1[i]? = some ch'.action
            rw [restock_stocked E τ.rng nd hne, h5]
            exact hact
          · subst hi hdl
            refine ⟨offspring E q nd a, ?_, ?_⟩
            · rw [h2, grown_getElem? E τ q nd a hp _, if_pos rfl]
            · show (restock E τ.rng nd).1[nd.children.length]? = some a
              rcases vector_at_inv _ _ _ _ hv with hin | ⟨hout, hst⟩
              · exact hin
              · exfalso
                have hga : E.get_actions nd.state ≠ [] := by
                  rcases hcond with hc | hc
                  · rw [hst] at hc; cases hc
                  · exact hc
                have hle := children_le_actions_run E hperm s g pre τ hreach q nd hn
                  (Or.inr hga)
                have := restock_in_range E hperm τ.rng nd hga hle hf
                omega
        · rw [if_neg h3] at hq''
          exact carry x' hq'' rfl rfl rfl
    · have hp : p < τ.nodes.length := getElem?_lt_length hn
      have hq'' := hq'
      rw [h2, bumped_getElem? τ p nd v hp q] at hq''
      by_cases h3 : q = p
      · rw [if_pos h3] at hq''
        cases hq''
        subst h3
        exact carry nd hn rfl rfl rfl
      · rw [if_neg h3] at hq''
        exact carry x' hq'' rfl rfl rfl
  · intro q x hq _ i c hc
    have hq0 : q < 1 := by simpa [plant] using getElem?_lt_length hq
    have h0 : q = 0 := by omega
    subst h0
    simp only [plant, List.getElem?_cons_zero, Option.some.injEq] at hq
    subst hq
    simp [TreeNodeT.new] at hc

/-! ## The claims -/

/-- C1: on a node without children and without stored actions (in particular a freshly constructed
one) whose state has `n > 0` legal actions, with a shuffle that permutes its input: `n` calls of
`expand` succeed, the `i`-th returning the `i`-th node allocated since (non-null, and these are
the node's children); after them `is_fully_expanded()` is true and `get_num_children()` is `n`;
and one more `expand` returns `NULL`. -/
theorem expand_until_full (E : Env State Action Rng) (σ : Store State Action Value Rng) (p : Nat)
    (nd : TreeNodeT State Action Value) (n : Nat)
    (hperm : ∀ g l, (E.random_shuffle g l).1.Perm l)
    (h : σ.nodes[p]? = some nd) (hc : nd.children = []) (ha : nd.actions = [])
    (hn : (E.get_actions nd.state).length = n) (hpos : 0 < n) :
    ∃ σ' nd',
      expand_times E σ p n = .ok (σ', (List.range n).map (fun i => some (σ.nodes.length + i))) ∧
      σ'.nodes[p]? = some nd' ∧
      nd'.children = (List.range n).map (fun i => σ.nodes.length + i) ∧
      nd'.is_fully_expanded = true ∧
      nd'.get_num_children = n ∧
      TreeNodeT.expand E σ' p = .ok (σ', none) := by
  have hlen : (restock E σ.rng nd).1.length = n := by
    rw [restock_empty E σ.rng nd ha, (hperm _ _).length_eq, hn]
  obtain ⟨σ', nd', h1, h2, h3, h4, _, h6⟩ := expand_times_fill E p n σ nd h
    (by rw [hc, hlen]; simp) (fun _ => hc) (by rw [hc]; simp) (by simp [child_actions, hc])
  have hfull : nd'.is_fully_expanded = true := by
    rw [is_fully_expanded_iff, h3, h4]
    refine ⟨?_, rfl⟩
    intro h0
    rw [h0, hlen] at h4
    simp at h4
    omega
  refine ⟨σ', nd', h1, h2, by rw [h6, hc]; rfl, hfull, ?_, expand_full E σ' p nd' h2 hfull⟩
  simp [TreeNodeT.get_num_children, h4, hlen]

/-- C1, on the pile of three tokens: two legal moves, two successful calls, the third `NULL`. -/
theorem expand_until_full_witness :
    0 < 2 ∧ ∃ σ' nd',
      expand_times (pile none) (plant 3 0 : Store Nat Nat Int Nat) 0 2
        = .ok (σ', (List.range 2).map (fun i => some (1 + i))) ∧
      σ'.nodes[0]? = some nd' ∧
      nd'.children = (List.range 2).map (fun i => 1 + i) ∧
      nd'.is_fully_expanded = true ∧
      nd'.get_num_children = ((2 : Nat) : Int) ∧
      TreeNodeT.expand (pile none) σ' 0 = .ok (σ', none) :=
  ⟨by decide, expand_until_full (pile none) (plant 3 0) 0 (TreeNodeT.new 3 none) 2
    (fun _ l => List.reverse_perm l) rfl rfl rfl rfl (by decide)⟩

/-- C2: with a shuffle that permutes its input, on a node without children and without stored
actions (in particular a freshly constructed one) whose state has `n` legal actions: the `n`
calls of `expand` that fully expand it succeed, and afterwards the `get_action()` values of its
`n` children, in child order, are a permutation of the list the state's `get_actions` gives. -/
theorem children_actions_perm (E : Env State Action Rng) (σ : Store State Action Value Rng)
    (p : Nat) (nd : TreeNodeT State Action Value)
    (hperm : ∀ g l, (E.random_shuffle g l).1.Perm l)
    (h : σ.nodes[p]? = some nd) (hc : nd.children = []) (ha : nd.actions = []) :
    ∃ σ' nd',
      expand_times E σ p (E.get_actions nd.state).length
        = .ok (σ', (List.range (E.get_actions nd.state).length).map
                    (fun i => some (σ.nodes.length + i))) ∧
      σ'.nodes[p]? = some nd' ∧
      nd'.children.length = (E.get_actions nd.state).length ∧
      (child_actions σ' nd').Perm (E.get_actions nd.state) := by
  have hsh : (restock E σ.rng nd).1 = (E.random_shuffle σ.rng (E.get_actions nd.state)).1 := by
    rw [restock_empty E σ.rng nd ha]
  have hlen : (restock E σ.rng nd).1.length = (E.get_actions nd.state).length := by
    rw [hsh, (hperm _ _).length_eq]
  obtain ⟨σ', nd', h1, h2, _, h4, h5, _⟩ :=
    expand_times_fill E p (E.get_actions nd.state).length σ nd h
      (by rw [hc, hlen]; simp) (fun _ => hc) (by rw [hc]; simp) (by simp [child_actions, hc])
  refine ⟨σ', nd', h1, h2, by rw [h4, hlen], ?_⟩
  rw [h5, hsh]
  exact hperm _ _

/-- C2, on the pile of three tokens: the two children carry a permutation of the moves `[1, 2]`. -/
theorem children_actions_perm_witness :
    ∃ σ' nd',
      expand_times (pile none) (plant 3 0 : Store Nat Nat Int Nat) 0 2
        = .ok (σ', (List.range 2).map (fun i => some (1 + i))) ∧
      σ'.nodes[0]? = some nd' ∧
      nd'.children.length = 2 ∧
      (child_actions σ' nd').Perm [1, 2] :=
  children_actions_perm (pile none) (plant 3 0) 0 (TreeNodeT.new 3 none)
    (fun _ l => List.reverse_perm l) rfl rfl rfl

/-- C3 (what the code does instead): on a node without children and stored actions whose state
has no legal action, `expand` passes the `is_fully_expanded()` check, leaves the action list
empty and reads `actions[0]` past its end. When that read traps the call is a fault; when it
hands back a value the call allocates a child for it and returns that child. In no case does it
return `NULL`. -/
theorem expand_without_actions (E : Env State Action Rng) (σ : Store State Action Value Rng)
    (p : Nat) (nd : TreeNodeT State Action Value)
    (hperm : ∀ g l, (E.random_shuffle g l).1.Perm l)
    (h : σ.nodes[p]? = some nd) (hc : nd.children = []) (ha : nd.actions = [])
    (h0 : E.get_actions nd.state = []) :
    (E.stray = none → TreeNodeT.expand E σ p = .error .index_out_of_range) ∧
    (∀ a, E.stray = some a → ∃ σ' nd',
        TreeNodeT.expand E σ p = .ok (σ', some σ.nodes.length) ∧
        σ'.nodes[p]? = some nd' ∧ nd'.get_num_children = 1 ∧ nd'.actions = []) ∧
    (∀ σ', TreeNodeT.expand E σ p ≠ .ok (σ', none)) := by
  have hp : p < σ.nodes.length := getElem?_lt_length h
  have hf : nd.is_fully_expanded = false := by
    rw [is_fully_expanded_eq_false_iff]
    exact Or.inl hc
  have hre : (restock E σ.rng nd).1 = [] := by
    rw [restock_empty E σ.rng nd ha, h0]
    exact List.Perm.eq_nil (hperm _ _)
  have hex := expand_open E σ p nd h hf
  rw [hre, hc] at hex
  refine ⟨?_, ?_, ?_⟩
  · intro hs
    rw [hex]
    simp [vector_at, hs]
  · intro a hs
    have hnode := grown_getElem? E σ p nd a hp p
    rw [if_neg (by omega), if_pos rfl] at hnode
    refine ⟨grown E σ p nd a, _, ?_, hnode, ?_, hre⟩
    · rw [hex]
      simp [vector_at, hs]
    · simp [TreeNodeT.get_num_children, hc]
  · intro σ' hcontra
    rw [hex] at hcontra
    cases hs : E.stray with
    | none => simp [vector_at, hs] at hcontra
    | some a => simp [vector_at, hs] at hcontra

/-- C3, on the empty pile with a trapping read: the first `expand` on the root is a fault, not
`NULL`. -/
theorem expand_without_actions_witness :
    TreeNodeT.expand (pile none) (plant 0 0 : Store Nat Nat Int Nat) 0
      = .error .index_out_of_range :=
  (expand_without_actions (pile none) (plant 0 0) 0 (TreeNodeT.new 0 none)
    (fun _ l => List.reverse_perm l) rfl rfl rfl rfl).1 rfl

/-- C4 (what the code does instead): on a root whose state has no legal action, where the read
of `actions[0]` past the end hands back a value, one `expand` leaves the root with one child and
an empty action list: more children than actions. -/
theorem children_outnumber_actions (E : Env State Action Rng) [Add Value] (s : State) (g : Rng)
    (a : Action) (hperm : ∀ g l, (E.random_shuffle g l).1.Perm l)
    (h0 : E.get_actions s = []) (hs : E.stray = some a) :
    ∃ σ' nd', run E (plant s g : Store State Action Value Rng) [Call.expand 0] = .ok σ' ∧
      σ'.nodes[0]? = some nd' ∧ nd'.actions.length < nd'.children.length := by
  have hf : (TreeNodeT.new s none : TreeNodeT State Action Value).is_fully_expanded = false := rfl
  have hre : (restock E g (TreeNodeT.new s none : TreeNodeT State Action Value)).1 = [] := by
    rw [restock_empty E g _ rfl]
    show (E.random_shuffle g (E.get_actions s)).1 = []
    rw [h0]
    exact List.Perm.eq_nil (hperm _ _)
  have hex := expand_open E (plant s g : Store State Action Value Rng) 0
    (TreeNodeT.new s none) rfl hf
  have hv : vector_at E.stray
      (restock E (plant s g : Store State Action Value Rng).rng
        (TreeNodeT.new s none : TreeNodeT State Action Value)).1
      (TreeNodeT.new s none : TreeNodeT State Action Value).children.length = .ok a := by
    show vector_at E.stray
      (restock E g (TreeNodeT.new s none : TreeNodeT State Action Value)).1 0 = .ok a
    rw [hre]
    simp [vector_at, hs]
  rw [hv] at hex
  have hnode := grown_getElem? E (plant s g : Store State Action Value Rng) 0
    (TreeNodeT.new s none) a (by simp [plant]) 0
  rw [if_neg (by simp [plant]), if_pos rfl] at hnode
  refine ⟨_, _, ?_, hnode, ?_⟩
  · simp only [run, perform, hex]
  · show (restock E g (TreeNodeT.new s none : TreeNodeT State Action Value)).1.length < _
    rw [hre]
    simp

/-- C4, on the empty pile where the stray read hands back `7`: after one `expand` the root has
one child and no action. -/
theorem children_outnumber_actions_witness :
    ∃ σ' nd', run (pile (some 7)) (plant 0 0 : Store Nat Nat Int Nat) [Call.expand 0] = .ok σ' ∧
      σ'.nodes[0]? = some nd' ∧ nd'.actions.length < nd'.children.length :=
  children_outnumber_actions (pile (some 7)) 0 0 7 (fun _ l => List.reverse_perm l) rfl rfl

/-- C5 (amended): on a node with no visit and zero value (in particular a freshly constructed
one), calling `update(v)` once per element of a list of at most `INT_MAX = 2147483647`
increments, in order, runs through and leaves `get_num_visits()` equal to the number of
increments and `get_value()` equal to their sum accumulated left to right from `0`, in the
arithmetic of the value type. -/
theorem update_accumulates [Add Value] (σ : Store State Action Value Rng) (p : Nat)
    (nd : TreeNodeT State Action Value) (vs : List Value)
    (h : σ.nodes[p]? = some nd) (hv : nd.num_visits = 0) (hval : nd.value = 0)
    (hN : vs.length ≤ 2147483647) :
    ∃ σ' nd', update_all σ p vs = .ok σ' ∧ σ'.nodes[p]? = some nd' ∧
      nd'.get_num_visits = vs.length ∧
      nd'.get_value = vs.foldl (fun acc v => acc + v) 0 := by
  obtain ⟨σ', nd', h1, h2, h3, h4⟩ := update_all_acc p vs σ nd h (by rw [hv]; decide)
    (by rw [hv]; decide)
  refine ⟨σ', nd', h1, h2, ?_, ?_⟩
  · rw [TreeNodeT.get_num_visits, h3, hv, wrap_int_of_range _ (by omega) (by omega)]
    simp
  · rw [TreeNodeT.get_value, h4, hval]

/-- C5, the scenario of the specification: `update(1)` then `update(0)` on a fresh root gives two
visits and value `1`. -/
theorem update_accumulates_witness :
    ∃ σ' nd', update_all (plant 3 0 : Store Nat Nat Int Nat) 0 [1, 0] = .ok σ' ∧
      σ'.nodes[0]? = some nd' ∧ nd'.get_num_visits = 2 ∧ nd'.get_value = 1 :=
  update_accumulates (plant 3 0 : Store Nat Nat Int Nat) 0 (TreeNodeT.new 3 none) [1, 0]
    rfl rfl rfl (by decide)

/-- C5 (where the claim fails): `2147483648 = INT_MAX + 1` calls of `update(0)` on a fresh root
run through and leave `get_num_visits()` at `-2147483648`, not at the number of calls: the
32-bit counter has wrapped. -/
theorem update_accumulates_overflow :
    ∃ σ' nd', update_all (plant 3 0 : Store Nat Nat Int Nat) 0 (List.replicate 2147483648 0)
        = .ok σ' ∧
      σ'.nodes[0]? = some nd' ∧ nd'.get_num_visits = -2147483648 ∧
      nd'.get_num_visits ≠ ((List.replicate 2147483648 (0 : Int)).length : Int) := by
  obtain ⟨σ', nd', h1, h2, h3, _⟩ := update_all_acc 0 (List.replicate 2147483648 (0 : Int))
    (plant 3 0 : Store Nat Nat Int Nat) (TreeNodeT.new 3 none) rfl (by decide) (by decide)
  rw [List.length_replicate] at h3
  have hw : wrap_int ((TreeNodeT.new 3 none : TreeNodeT Nat Nat Int).num_visits
      + ((2147483648 : Nat) : Int)) = -2147483648 := by decide
  rw [hw] at h3
  refine ⟨σ', nd', h1, h2, h3, ?_⟩
  rw [List.length_replicate, TreeNodeT.get_num_visits, h3]
  decide

/-- C6: a root (constructed without a parent) has depth `0`; a child returned by a successful
`expand` on a node has the depth of that node plus one, and the node keeps its depth; and in
every store reached from a fresh root by `expand` and `update` calls, a node reached from the
root by `k` `get_child` steps has `get_depth() == k`. -/
theorem depth_counts_steps [Add Value] (E : Env State Action Rng) :
    (∀ s : State, (TreeNodeT.new s none : TreeNodeT State Action Value).get_depth = 0) ∧
    (∀ (σ σ' : Store State Action Value Rng) (p c : Nat) (nd : TreeNodeT State Action Value),
      σ.nodes[p]? = some nd → TreeNodeT.expand E σ p = .ok (σ', some c) →
      ∃ ch nd', σ'.nodes[c]? = some ch ∧ σ'.nodes[p]? = some nd' ∧
        nd'.get_depth = nd.get_depth ∧ ch.get_depth = nd.get_depth + 1) ∧
    (∀ (s : State) (g : Rng) (calls : List (Call Value)) (σ : Store State Action Value Rng)
      (idxs : List Int) (q : Nat),
      run E (plant s g) calls = .ok σ → descend σ 0 idxs = .ok q →
      ∃ x : TreeNodeT State Action Value, σ.nodes[q]? = some x ∧ x.get_depth = idxs.length) := by
  refine ⟨fun _ => rfl, ?_, ?_⟩
  · intro σ σ' p c nd hn hx
    have hp : p < σ.nodes.length := getElem?_lt_length hn
    obtain ⟨nd0, hn0, hcase⟩ := expand_inv E σ σ' p (some c) hx
    rw [hn] at hn0
    cases hn0
    rcases hcase with ⟨_, _, h3⟩ | ⟨_, a, _, h2, h3⟩
    · cases h3
    · cases h3
      subst h2
      have hnode := grown_getElem? E σ p nd a hp p
      rw [if_neg (by omega), if_pos rfl] at hnode
      have hchild := grown_getElem? E σ p nd a hp σ.nodes.length
      rw [if_pos rfl] at hchild
      exact ⟨offspring E p nd a, _, hchild, hnode, rfl, rfl⟩
  · intro s g calls σ idxs q hr hd
    obtain ⟨r, h1, h2, _⟩ := root_depth_run E s g calls σ hr
    obtain ⟨x, hx, hxd⟩ := descend_depth σ (linked_run E s g calls σ hr) idxs 0 q r h1 hd
    refine ⟨x, hx, ?_⟩
    rw [TreeNodeT.get_depth, hxd, h2]
    simp

/-- C6, on the pile of three tokens: after expanding the root and then its first child, two
`get_child(0)` steps from the root end on a node of depth `2`. -/
theorem depth_counts_steps_witness :
    ∃ σ : Store Nat Nat Int Nat,
      run (pile none) (plant 3 0) [Call.expand 0, Call.expand 1] = .ok σ ∧
      descend σ 0 [0, 0] = .ok 2 ∧
      ∃ x : TreeNodeT Nat Nat Int, σ.nodes[2]? = some x ∧ x.get_depth = ((2 : Nat) : Int) :=
  ⟨_, rfl, rfl, (depth_counts_steps (pile none)).2.2 3 0 [Call.expand 0, Call.expand 1] _
    [0, 0] 2 rfl rfl⟩

/-- C7: on a node with `k` children whose stored action list is longer than `k`, `expand`
succeeds with `a = actions[k]`: it returns the newly allocated node, whose `get_action()` is `a`
and whose `get_state()` is the expanding node's state with `apply_action(a)` applied once; that
node is the last child (`get_child(k)`), `get_num_children()` becomes `k + 1`, the earlier child
pointers keep their positions, every other node of the store (the earlier children among them)
is unchanged, and the expanding node keeps its state and its action list. -/
theorem expand_takes_next_action (E : Env State Action Rng) (σ : Store State Action Value Rng)
    (p : Nat) (nd : TreeNodeT State Action Value) (a : Action)
    (h : σ.nodes[p]? = some nd) (ha : nd.actions[nd.children.length]? = some a) :
    ∃ σ' nd' ch,
      TreeNodeT.expand E σ p = .ok (σ', some σ.nodes.length) ∧
      σ'.nodes[p]? = some nd' ∧ σ'.nodes[σ.nodes.length]? = some ch ∧
      ch.get_action = a ∧ ch.get_state = E.apply_action nd.get_state a ∧
      nd'.get_child nd.get_num_children = .ok σ.nodes.length ∧
      nd'.get_num_children = nd.get_num_children + 1 ∧
      nd'.children = nd.children ++ [σ.nodes.length] ∧
      (∀ q, q ≠ p → q < σ.nodes.length → σ'.nodes[q]? = σ.nodes[q]?) ∧
      nd'.get_state = nd.get_state ∧ nd'.actions = nd.actions := by
  have hp : p < σ.nodes.length := getElem?_lt_length h
  have hlt : nd.children.length < nd.actions.length := getElem?_lt_length ha
  have hne : nd.actions ≠ [] := by
    intro h0
    rw [h0] at hlt
    simp at hlt
  have hf : nd.is_fully_expanded = false := by
    rw [is_fully_expanded_eq_false_iff]
    right
    omega
  have hre := restock_stocked E σ.rng nd hne
  have hex := expand_open E σ p nd h hf
  rw [hre, vector_at_of_getElem? E.stray _ _ a ha] at hex
  have hnode := grown_getElem? E σ p nd a hp p
  rw [if_neg (by omega), if_pos rfl] at hnode
  have hchild := grown_getElem? E σ p nd a hp σ.nodes.length
  rw [if_pos rfl] at hchild
  refine ⟨grown E σ p nd a, _, _, hex, hnode, hchild, rfl, rfl, ?_, ?_, rfl, ?_, rfl, ?_⟩
  · simp [TreeNodeT.get_child, TreeNodeT.get_num_children]
  · simp [TreeNodeT.get_num_children]
  · intro q hq hql
    rw [grown_getElem? E σ p nd a hp q, if_neg (by omega), if_neg hq]
  · show (restock E σ.rng nd).1 = nd.actions
    rw [hre]

/-- C7, on the pile of three tokens after one expansion of the root: the stored list is `[2, 1]`,
the root has one child, and the next `expand` gives the child for the move `1`, in state `2`. -/
theorem expand_takes_next_action_witness :
    run (pile none) (plant 3 0) [Call.expand 0] = .ok pile_expanded_once ∧
    ∃ σ' nd' ch,
      TreeNodeT.expand (pile none) pile_expanded_once 0 = .ok (σ', some 2) ∧
      σ'.nodes[0]? = some nd' ∧ σ'.nodes[2]? = some ch ∧
      ch.get_action = 1 ∧ ch.get_state = 2 ∧
      nd'.get_child 1 = .ok 2 ∧
      nd'.get_num_children = 2 ∧
      nd'.children = [1, 2] ∧
      (∀ q, q ≠ 0 → q < 2 → σ'.nodes[q]? = pile_expanded_once.nodes[q]?) ∧
      nd'.get_state = 3 ∧ nd'.actions = [2, 1] :=
  ⟨rfl, expand_takes_next_action (pile none) pile_expanded_once 0
    ⟨3, 0, none, 0, 0, 0, [1], [2, 1]⟩ 1 rfl rfl⟩

/-- C8: a call of `expand` that returns (a child or `NULL`) leaves `get_num_visits()` and
`get_value()` of every node that existed before the call, the expanded node included, as they
were. -/
theorem expand_keeps_statistics (E : Env State Action Rng) (σ σ' : Store State Action Value Rng)
    (p q : Nat) (r : Option Nat) (x : TreeNodeT State Action Value)
    (h : TreeNodeT.expand E σ p = .ok (σ', r)) (hq : σ.nodes[q]? = some x) :
    ∃ x', σ'.nodes[q]? = some x' ∧ x'.get_num_visits = x.get_num_visits ∧
      x'.get_value = x.get_value := by
  obtain ⟨nd, hn, hcase⟩ := expand_inv E σ σ' p r h
  have hp : p < σ.nodes.length := getElem?_lt_length hn
  have hql : q < σ.nodes.length := getElem?_lt_length hq
  rcases hcase with ⟨_, h2, _⟩ | ⟨_, a, _, h2, _⟩
  · subst h2
    exact ⟨x, hq, rfl, rfl⟩
  · subst h2
    rw [grown_getElem? E σ p nd a hp q, if_neg (by omega)]
    by_cases h1 : q = p
    · subst h1
      rw [hn] at hq
      cases hq
      exact ⟨{ x with actions := (restock E σ.rng x).1,
                      children := x.children ++ [σ.nodes.length] },
        by rw [if_pos rfl], rfl, rfl⟩
    · exact ⟨x, by rw [if_neg h1, hq], rfl, rfl⟩

/-- C8, on the pile of three tokens: the root was updated with `5`, then expanded; it still has
one visit and value `5`. -/
theorem expand_keeps_statistics_witness :
    run (pile none) (plant 3 0) [Call.update 0 5] = .ok pile_updated_once ∧
    ∃ σ', TreeNodeT.expand (pile none) pile_updated_once 0 = .ok (σ', some 1) ∧
      ∃ x', σ'.nodes[0]? = some x' ∧ x'.get_num_visits = 1 ∧ x'.get_value = 5 :=
  ⟨rfl, _, rfl, expand_keeps_statistics (pile none) pile_updated_once _ 0 0 (some 1)
    ⟨3, 0, none, 1, 5, 0, [], []⟩ rfl rfl⟩

/-- C9: `is_fully_expanded()` is true exactly when the node has at least one child and as many
children as stored actions; it is false for every node without children, so for a freshly
constructed node, whatever the legal actions of its state. -/
theorem is_fully_expanded_spec :
    (∀ nd : TreeNodeT State Action Value,
      nd.is_fully_expanded = true ↔
        (1 ≤ nd.get_num_children ∧ nd.get_num_children = nd.actions.length)) ∧
    (∀ nd : TreeNodeT State Action Value, nd.get_num_children = 0 → nd.is_fully_expanded = false) ∧
    (∀ (s : State) (parent : Option (Nat × TreeNodeT State Action Value)),
      (TreeNodeT.new s parent : TreeNodeT State Action Value).is_fully_expanded = false) := by
  refine ⟨?_, ?_, fun _ _ => rfl⟩
  · intro nd
    rw [is_fully_expanded_iff]
    simp only [TreeNodeT.get_num_children, Nat.cast_inj]
    constructor
    · rintro ⟨h1, h2⟩
      refine ⟨?_, h2⟩
      have : 0 < nd.children.length := List.length_pos.mpr h1
      omega
    · rintro ⟨h1, h2⟩
      refine ⟨?_, h2⟩
      intro h0
      rw [h0] at h1
      simp at h1
  · intro nd h0
    rw [is_fully_expanded_eq_false_iff]
    left
    simp only [TreeNodeT.get_num_children] at h0
    exact List.eq_nil_of_length_eq_zero (by omega)

/-- C10: a node constructed from a state `s` without a parent has `get_state() == s`, depth `0`,
no visit, value `0`, no children, an empty action list, the default action and a null parent;
and a child returned by `expand` has no visit, value `0`, no children, an empty action list and
`get_parent()` equal to the node that was expanded. -/
theorem construction_postcondition (E : Env State Action Rng) :
    (∀ s : State,
      (TreeNodeT.new s none : TreeNodeT State Action Value).get_state = s ∧
      (TreeNodeT.new s none : TreeNodeT State Action Value).get_depth = 0 ∧
      (TreeNodeT.new s none : TreeNodeT State Action Value).get_num_visits = 0 ∧
      (TreeNodeT.new s none : TreeNodeT State Action Value).get_value = 0 ∧
      (TreeNodeT.new s none : TreeNodeT State Action Value).get_num_children = 0 ∧
      (TreeNodeT.new s none : TreeNodeT State Action Value).children = [] ∧
      (TreeNodeT.new s none : TreeNodeT State Action Value).actions = [] ∧
      (TreeNodeT.new s none : TreeNodeT State Action Value).get_action = default ∧
      (TreeNodeT.new s none : TreeNodeT State Action Value).get_parent = none) ∧
    (∀ (σ σ' : Store State Action Value Rng) (p c : Nat),
      TreeNodeT.expand E σ p = .ok (σ', some c) →
      ∃ ch, σ'.nodes[c]? = some ch ∧ ch.get_num_visits = 0 ∧ ch.get_value = 0 ∧
        ch.get_num_children = 0 ∧ ch.children = [] ∧ ch.actions = [] ∧
        ch.get_parent = some p) := by
  refine ⟨fun s => ⟨rfl, rfl, rfl, rfl, rfl, rfl, rfl, rfl, rfl⟩, ?_⟩
  intro σ σ' p c hx
  obtain ⟨nd, hn, hcase⟩ := expand_inv E σ σ' p (some c) hx
  have hp : p < σ.nodes.length := getElem?_lt_length hn
  rcases hcase with ⟨_, _, h3⟩ | ⟨_, a, _, h2, h3⟩
  · cases h3
  · cases h3
    subst h2
    have hchild := grown_getElem? E σ p nd a hp σ.nodes.length
    rw [if_pos rfl] at hchild
    exact ⟨offspring E p nd a, hchild, rfl, rfl, rfl, rfl, rfl, rfl⟩

/-- C10, on the pile of three tokens: the child the first `expand` on the root returns. -/
theorem construction_postcondition_witness :
    ∃ σ' : Store Nat Nat Int Nat,
      TreeNodeT.expand (pile none) (plant 3 0) 0 = .ok (σ', some 1) ∧
      ∃ ch, σ'.nodes[1]? = some ch ∧ ch.get_num_visits = 0 ∧ ch.get_value = 0 ∧
        ch.get_num_children = 0 ∧ ch.children = [] ∧ ch.actions = [] ∧
        ch.get_parent = some 0 :=
  ⟨_, rfl, (construction_postcondition (pile none)).2 (plant 3 0) _ 0 1 rfl⟩

/-- C11 (what the code does instead): on a root whose state has no legal action, where the read
of `actions[0]` past the end hands back a value `a`, one `expand` leaves the root with a child
`get_child(0)` whose `get_action()` is `a`, while the stored action list is empty: there is no
`actions[0]` for the child's action to equal. -/
theorem child_without_slot (E : Env State Action Rng) [Add Value] (s : State) (g : Rng)
    (a : Action) (hperm : ∀ g l, (E.random_shuffle g l).1.Perm l)
    (h0 : E.get_actions s = []) (hs : E.stray = some a) :
    ∃ σ' nd' ch, run E (plant s g : Store State Action Value Rng) [Call.expand 0] = .ok σ' ∧
      σ'.nodes[0]? = some nd' ∧ nd'.get_num_children = 1 ∧ nd'.get_child 0 = .ok 1 ∧
      σ'.nodes[1]? = some ch ∧ ch.get_action = a ∧ nd'.actions[0]? = none := by
  have hf : (TreeNodeT.new s none : TreeNodeT State Action Value).is_fully_expanded = false := rfl
  have hre : (restock E g (TreeNodeT.new s none : TreeNodeT State Action Value)).1 = [] := by
    rw [restock_empty E g _ rfl]
    show (E.random_shuffle g (E.get_actions s)).1 = []
    rw [h0]
    exact List.Perm.eq_nil (hperm _ _)
  have hex := expand_open E (plant s g : Store State Action Value Rng) 0
    (TreeNodeT.new s none) rfl hf
  have hv : vector_at E.stray
      (restock E (plant s g : Store State Action Value Rng).rng
        (TreeNodeT.new s none : TreeNodeT State Action Value)).1
      (TreeNodeT.new s none : TreeNodeT State Action Value).children.length = .ok a := by
    show vector_at E.stray
      (restock E g (TreeNodeT.new s none : TreeNodeT State Action Value)).1 0 = .ok a
    rw [hre]
    simp [vector_at, hs]
  rw [hv] at hex
  have hnode := grown_getElem? E (plant s g : Store State Action Value Rng) 0
    (TreeNodeT.new s none) a (by simp [plant]) 0
  rw [if_neg (by simp [plant]), if_pos rfl] at hnode
  have hchild := grown_getElem? E (plant s g : Store State Action Value Rng) 0
    (TreeNodeT.new s none) a (by simp [plant]) 1
  rw [if_pos (by simp [plant])] at hchild
  refine ⟨_, _, _, ?_, hnode, rfl, rfl, hchild, rfl, ?_⟩
  · simp only [run, perform, hex]
  · show (restock E g (TreeNodeT.new s none : TreeNodeT State Action Value)).1[0]? = none
    rw [hre]
    rfl

/-- C11, on the empty pile where the stray read hands back `7`: after one `expand` the root's
child `0` carries the action `7` and the stored action list is empty. -/
theorem child_without_slot_witness :
    ∃ σ' nd' ch, run (pile (some 7)) (plant 0 0 : Store Nat Nat Int Nat) [Call.expand 0] = .ok σ' ∧
      σ'.nodes[0]? = some nd' ∧ nd'.get_num_children = 1 ∧ nd'.get_child 0 = .ok 1 ∧
      σ'.nodes[1]? = some ch ∧ ch.get_action = 7 ∧ nd'.actions[0]? = none :=
  child_without_slot (pile (some 7)) 0 0 7 (fun _ l => List.reverse_perm l) rfl rfl

/-- The life of a stored action list, with a shuffle that permutes its input: a node has no
stored action as long as no `expand` was called on it; the first `expand` on it that returns
leaves it with a permutation of the legal actions of its state; no later `expand` or `update`,
on it or on any other node, changes that list; and when the state has a legal action, a later
`expand` on the node skips the query-and-shuffle block: it leaves the random source as it
was. -/
theorem actions_settled_once [Add Value] (E : Env State Action Rng) (s : State) (g : Rng)
    (pre post : List (Call Value)) (q : Nat) (σ1 σ2 σ3 : Store State Action Value Rng)
    (hperm : ∀ g l, (E.random_shuffle g l).1.Perm l)
    (h1 : run E (plant s g) pre = .ok σ1) (hpre : ∀ c ∈ pre, c ≠ Call.expand q)
    (h2 : perform E σ1 (Call.expand q) = .ok σ2) (h3 : run E σ2 post = .ok σ3) :
    ∃ x1 x2 x3, σ1.nodes[q]? = some x1 ∧ σ2.nodes[q]? = some x2 ∧ σ3.nodes[q]? = some x3 ∧
      x1.actions = [] ∧
      x2.actions.Perm (E.get_actions x1.state) ∧
      x3.actions = x2.actions ∧
      (E.get_actions x1.state ≠ [] →
        restock E σ3.rng x3 = (x3.actions, σ3.rng) ∧
        ∀ σ4, perform E σ3 (Call.expand q) = .ok σ4 → σ4.rng = σ3.rng) := by
  rcases perform_inv E σ1 σ2 _ h2 with
    ⟨p, x1, hc, hn, hcase⟩ | ⟨p, nd, v, hc, _, _⟩
  swap
  · cases hc
  cases hc
  have he : x1.actions = [] := actions_empty_before E s g q pre σ1 hpre h1 x1 hn
  have hp : q < σ1.nodes.length := getElem?_lt_length hn
  rcases hcase with ⟨hf, _⟩ | ⟨_, a, _, hσ2⟩
  · exfalso
    rw [is_fully_expanded_iff, he] at hf
    obtain ⟨hf1, hf2⟩ := hf
    exact hf1 (List.eq_nil_of_length_eq_zero hf2)
  · subst hσ2
    have hnode := grown_getElem? E σ1 q x1 a hp q
    rw [if_neg (by omega), if_pos rfl] at hnode
    have hP : (restock E σ1.rng x1).1.Perm (E.get_actions x1.state) := by
      rw [restock_empty E σ1.rng x1 he]
      exact hperm _ _
    obtain ⟨x3, hx3, hx3a, hx3s⟩ := actions_kept E hperm q x1.state (restock E σ1.rng x1).1 hP
      post (grown E σ1 q x1 a) σ3 ⟨_, hnode, rfl, rfl⟩ h3
    refine ⟨x1, _, x3, hn, hnode, hx3, he, hP, hx3a, ?_⟩
    intro hga
    have hne : x3.actions ≠ [] := by
      intro h0
      rw [hx3a] at h0
      rw [h0] at hP
      exact hga (List.Perm.eq_nil hP.symm)
    refine ⟨restock_stocked E σ3.rng x3 hne, ?_⟩
    intro σ4 h4
    rcases perform_inv E σ3 σ4 _ h4 with
      ⟨p, y, hc, hy, ⟨_, hσ4⟩ | ⟨_, b, _, hσ4⟩⟩ | ⟨p, nd, v, hc, _, _⟩
    · rw [hσ4]
    · cases hc
      rw [hx3] at hy
      cases hy
      rw [hσ4]
      show (restock E σ3.rng x3).2 = σ3.rng
      rw [restock_stocked E σ3.rng x3 hne]
    · cases hc

/-- The lemma `actions_settled_once` on the pile of three tokens: the root is updated, then
expanded, then expanded again and its first child updated; its stored list is empty, then
`[2, 1]`, and stays `[2, 1]`. -/
theorem actions_settled_once_witness :
    run (pile none) (plant 3 0) [Call.update 0 5] = .ok pile_updated_once ∧
    perform (pile none) pile_updated_once (Call.expand 0) = .ok pile_settled ∧
    run (pile none) pile_settled [Call.expand 0, Call.update 1 1] = .ok pile_settled_later ∧
    ∃ x1 x2 x3, pile_updated_once.nodes[0]? = some x1 ∧ pile_settled.nodes[0]? = some x2 ∧
      pile_settled_later.nodes[0]? = some x3 ∧
      x1.actions = [] ∧
      x2.actions.Perm ((pile none).get_actions x1.state) ∧
      x3.actions = x2.actions ∧
      ((pile none).get_actions x1.state ≠ [] →
        restock (pile none) pile_settled_later.rng x3 = (x3.actions, pile_settled_later.rng) ∧
        ∀ σ4, perform (pile none) pile_settled_later (Call.expand 0) = .ok σ4 →
          σ4.rng = pile_settled_later.rng) :=
  ⟨rfl, rfl, rfl,
    actions_settled_once (pile none) 3 0 [Call.update 0 5] [Call.expand 0, Call.update 1 1] 0
      pile_updated_once pile_settled pile_settled_later (fun _ l => List.reverse_perm l)
      (by rfl)
      (by
        intro c hc
        simp only [List.mem_singleton] at hc
        subst hc
        intro h
        cases h)
      (by rfl) (by rfl)⟩

/-- Where a read past the end of `actions` traps, every node on which an `expand` returns is
queried and shuffled once: the statement of `actions_settled_once` holds without the condition
on the legal actions, since an `expand` that returns has found one. -/
theorem actions_settled_once_of_trap [Add Value] (E : Env State Action Rng) (s : State) (g : Rng)
    (pre post : List (Call Value)) (q : Nat) (σ1 σ2 σ3 : Store State Action Value Rng)
    (hperm : ∀ g l, (E.random_shuffle g l).1.Perm l) (hs : E.stray = none)
    (h1 : run E (plant s g) pre = .ok σ1) (hpre : ∀ c ∈ pre, c ≠ Call.expand q)
    (h2 : perform E σ1 (Call.expand q) = .ok σ2) (h3 : run E σ2 post = .ok σ3) :
    ∃ x1 x2 x3, σ1.nodes[q]? = some x1 ∧ σ2.nodes[q]? = some x2 ∧ σ3.nodes[q]? = some x3 ∧
      x1.actions = [] ∧
      x2.actions.Perm (E.get_actions x1.state) ∧
      x3.actions = x2.actions ∧
      restock E σ3.rng x3 = (x3.actions, σ3.rng) ∧
      ∀ σ4, perform E σ3 (Call.expand q) = .ok σ4 → σ4.rng = σ3.rng := by
  obtain ⟨x1, x2, x3, k1, k2, k3, k4, k5, k6, k7⟩ :=
    actions_settled_once E s g pre post q σ1 σ2 σ3 hperm h1 hpre h2 h3
  have hga : E.get_actions x1.state ≠ [] := by
    intro h0
    rcases perform_inv E σ1 σ2 _ h2 with
      ⟨p, y, hc, hy, ⟨hf, _⟩ | ⟨_, a, hv, _⟩⟩ | ⟨p, nd, v, hc, _, _⟩
    · cases hc
      rw [k1] at hy
      cases hy
      rw [is_fully_expanded_iff, k4] at hf
      exact hf.1 (List.eq_nil_of_length_eq_zero hf.2)
    · cases hc
      rw [k1] at hy
      cases hy
      have hre : (restock E σ1.rng x1).1 = [] := by
        rw [restock_empty E σ1.rng x1 k4, h0]
        exact List.Perm.eq_nil (hperm _ _)
      rw [hre] at hv
      simp [vector_at, hs] at hv
    · cases hc
  exact ⟨x1, x2, x3, k1, k2, k3, k4, k5, k6, (k7 hga).1, (k7 hga).2⟩

/-- C12 (what the code does instead): on the empty pile, where the read past the end hands back
`7`, two calls of `expand` on the root both run the query-and-shuffle block; the shuffle of
`pile` counts its calls in the random source, which goes from `0` to `1` to `2`, the stored
list staying empty. The root is queried and shuffled twice, not once. -/
theorem shuffles_again_without_actions :
    ∃ (σ1 σ2 : Store Nat Nat Int Nat) (x1 x2 : TreeNodeT Nat Nat Int),
      perform (pile (some 7)) (plant 0 0) (Call.expand 0) = .ok σ1 ∧
      perform (pile (some 7)) σ1 (Call.expand 0) = .ok σ2 ∧
      σ1.nodes[0]? = some x1 ∧ σ2.nodes[0]? = some x2 ∧
      x1.actions = [] ∧ x2.actions = [] ∧
      σ1.rng = 1 ∧ σ2.rng = 2 ∧ σ2.rng ≠ σ1.rng :=
  ⟨_, _, _, _, rfl, rfl, rfl, rfl, rfl, rfl, rfl, rfl, by decide⟩

/-- C13 (amended): `update(v)` on a node runs through, adds `v` to its `value` and increments
its 32-bit `num_visits` (by exactly `1` as long as `num_visits` is below `INT_MAX = 2147483647`),
and leaves its state, action, depth, parent, children and action list as they were; every other
node of the store is unchanged; and in a store reached from a fresh root the parent and the
children of the node are other nodes, so their `num_visits` and `value` (and all else) are
unchanged. -/
theorem update_touches_statistics_only [Add Value] (E : Env State Action Rng) :
    (∀ (σ : Store State Action Value Rng) (p : Nat) (v : Value)
        (nd : TreeNodeT State Action Value), σ.nodes[p]? = some nd →
      ∃ σ' nd', TreeNodeT.update σ p v = .ok σ' ∧ σ'.nodes[p]? = some nd' ∧
        nd'.get_value = nd.get_value + v ∧
        nd'.get_num_visits = wrap_int (nd.get_num_visits + 1) ∧
        (-2147483648 ≤ nd.get_num_visits → nd.get_num_visits < 2147483647 →
          nd'.get_num_visits = nd.get_num_visits + 1) ∧
        nd'.state = nd.state ∧ nd'.action = nd.action ∧ nd'.depth = nd.depth ∧
        nd'.parent = nd.parent ∧ nd'.children = nd.children ∧ nd'.actions = nd.actions ∧
        (∀ q, q ≠ p → σ'.nodes[q]? = σ.nodes[q]?) ∧
        σ'.nodes.length = σ.nodes.length ∧ σ'.rng = σ.rng) ∧
    (∀ (s : State) (g : Rng) (calls : List (Call Value)) (σ σ' : Store State Action Value Rng)
        (p : Nat) (v : Value) (nd : TreeNodeT State Action Value),
      run E (plant s g) calls = .ok σ → σ.nodes[p]? = some nd →
      TreeNodeT.update σ p v = .ok σ' →
      (∀ q, nd.parent = some q → σ'.nodes[q]? = σ.nodes[q]?) ∧
      (∀ c ∈ nd.children, σ'.nodes[c]? = σ.nodes[c]?)) := by
  have frame : ∀ (σ : Store State Action Value Rng) (p : Nat) (v : Value)
      (nd : TreeNodeT State Action Value), σ.nodes[p]? = some nd →
      ∀ q, q ≠ p → (bumped σ p nd v).nodes[q]? = σ.nodes[q]? := by
    intro σ p v nd hn q hq
    rw [bumped_getElem? σ p nd v (getElem?_lt_length hn) q, if_neg hq]
  refine ⟨?_, ?_⟩
  · intro σ p v nd hn
    have hp : p < σ.nodes.length := getElem?_lt_length hn
    have hnode := bumped_getElem? σ p nd v hp p
    rw [if_pos rfl] at hnode
    refine ⟨bumped σ p nd v, _, update_eq σ p nd v hn, hnode, rfl, rfl, ?_, rfl, rfl, rfl, rfl,
      rfl, rfl, frame σ p v nd hn, by simp [bumped], rfl⟩
    intro hlo hhi
    show wrap_int (nd.num_visits + 1) = nd.num_visits + 1
    simp only [TreeNodeT.get_num_visits] at hlo hhi
    exact wrap_int_of_range _ (by omega) (by omega)
  · intro s g calls σ σ' p v nd hr hn hu
    rw [update_eq σ p nd v hn] at hu
    cases hu
    refine ⟨?_, ?_⟩
    · intro q hpar
      have := parent_lt_run E s g calls σ hr p q nd hn hpar
      exact frame σ p v nd hn q (by omega)
    · intro c hc
      have := (linked_run E s g calls σ hr p nd hn c hc).1
      exact frame σ p v nd hn c (by omega)

/-- C13, on the pile of three tokens after the root and then its first child were expanded:
`update(5)` on that child gives it one visit and value `5`, and leaves the root, its parent, and
its own child as they were. -/
theorem update_touches_statistics_only_witness :
    run (pile none) (plant 3 0) [Call.expand 0, Call.expand 1] = .ok pile_two_levels ∧
    ∃ σ', TreeNodeT.update pile_two_levels 1 5 = .ok σ' ∧
      σ'.nodes[1]? = some ⟨1, 2, some 0, 1, 5, 1, [2], [1]⟩ ∧
      σ'.nodes[0]? = pile_two_levels.nodes[0]? ∧
      σ'.nodes[2]? = pile_two_levels.nodes[2]? :=
  ⟨rfl, _, rfl, rfl,
    ((update_touches_statistics_only (pile none)).2 3 0 [Call.expand 0, Call.expand 1]
      pile_two_levels _ 1 5 ⟨1, 2, some 0, 0, 0, 1, [2], [1]⟩
      (by rfl) (by rfl) (by rfl)).1 0 rfl,
    ((update_touches_statistics_only (pile none)).2 3 0 [Call.expand 0, Call.expand 1]
      pile_two_levels _ 1 5 ⟨1, 2, some 0, 0, 0, 1, [2], [1]⟩
      (by rfl) (by rfl) (by rfl)).2 2 (List.Mem.head _)⟩

/-- C13 (where the claim fails): after `2147483647 = INT_MAX` calls of `update(0)` the root has
`get_num_visits() == 2147483647`, and one more `update(0)` leaves it at `-2147483648`: the call
has not added `1`. -/
theorem update_wraps_at_int_max :
    ∃ (σ σ' : Store Nat Nat Int Nat) (nd nd' : TreeNodeT Nat Nat Int),
      update_all (plant 3 0) 0 (List.replicate 2147483647 0) = .ok σ ∧
      σ.nodes[0]? = some nd ∧ nd.get_num_visits = 2147483647 ∧
      TreeNodeT.update σ 0 0 = .ok σ' ∧ σ'.nodes[0]? = some nd' ∧
      nd'.get_num_visits = -2147483648 ∧ nd'.get_num_visits ≠ nd.get_num_visits + 1 := by
  obtain ⟨σ, nd, h1, h2, h3, _⟩ := update_all_acc 0 (List.replicate 2147483647 (0 : Int))
    (plant 3 0 : Store Nat Nat Int Nat) (TreeNodeT.new 3 none) rfl (by decide) (by decide)
  rw [List.length_replicate] at h3
  have hw : wrap_int ((TreeNodeT.new 3 none : TreeNodeT Nat Nat Int).num_visits
      + ((2147483647 : Nat) : Int)) = 2147483647 := by decide
  rw [hw] at h3
  have hp : 0 < σ.nodes.length := getElem?_lt_length h2
  have hnode := bumped_getElem? σ 0 nd 0 hp 0
  rw [if_pos rfl] at hnode
  have hv : wrap_int (nd.num_visits + 1) = -2147483648 := by
    rw [h3]
    decide
  refine ⟨σ, bumped σ 0 nd 0, nd, _, h1, h2, h3, update_eq σ 0 nd 0 h2, hnode, hv, ?_⟩
  show wrap_int (nd.num_visits + 1) ≠ nd.num_visits + 1
  rw [hv, h3]
  decide

/-- C14: in a store reached from a fresh root by `expand` and `update` calls, with a shuffle
that permutes its input, on a node whose state has at least one legal action and that passes the
`is_fully_expanded()` check (it is not fully expanded): the index `children.size()` is strictly
less than the size of the action list `expand` indexes, the read yields the element at that
index whatever a read past the end would do, and `expand` returns a child, not a fault. -/
theorem expand_index_in_range [Add Value] (E : Env State Action Rng) (s : State) (g : Rng)
    (calls : List (Call Value)) (σ : Store State Action Value Rng) (q : Nat)
    (x : TreeNodeT State Action Value)
    (hperm : ∀ g l, (E.random_shuffle g l).1.Perm l)
    (hr : run E (plant s g) calls = .ok σ) (hq : σ.nodes[q]? = some x)
    (hga : E.get_actions x.state ≠ []) (hf : x.is_fully_expanded = false) :
    x.children.length < (restock E σ.rng x).1.length ∧
    ∃ a, (restock E σ.rng x).1[x.children.length]? = some a ∧
      vector_at E.stray (restock E σ.rng x).1 x.children.length = .ok a ∧
      TreeNodeT.expand E σ q = .ok (grown E σ q x a, some σ.nodes.length) := by
  have hle := children_le_actions_run E hperm s g calls σ hr q x hq (Or.inr hga)
  have hlt := restock_in_range E hperm σ.rng x hga hle hf
  have ha : (restock E σ.rng x).1[x.children.length]? = some _ := List.getElem?_eq_getElem hlt
  have hv := vector_at_of_getElem? E.stray _ _ _ ha
  refine ⟨hlt, _, ha, hv, ?_⟩
  rw [expand_open E σ q x hq hf, hv]

/-- C14, on the pile of three tokens after one expansion of the root: the root has one child and
two stored actions, index `1` is in range and the read yields the move `1`, also where a read
past the end would hand back `7`. -/
theorem expand_index_in_range_witness :
    run (pile (some 7)) (plant 3 0) [Call.expand 0] = .ok pile_expanded_once ∧
    1 < 2 ∧
    ∃ a, ([2, 1] : List Nat)[1]? = some a ∧
      vector_at (some 7) [2, 1] 1 = .ok a ∧
      TreeNodeT.expand (pile (some 7)) pile_expanded_once 0
        = .ok (grown (pile (some 7)) pile_expanded_once 0 ⟨3, 0, none, 0, 0, 0, [1], [2, 1]⟩ a,
               some 2) :=
  ⟨rfl, expand_index_in_range (pile (some 7)) 3 0 [Call.expand 0] pile_expanded_once 0
    ⟨3, 0, none, 0, 0, 0, [1], [2, 1]⟩ (fun _ l => List.reverse_perm l) rfl rfl
    (by decide) rfl⟩

/-- C15: `expand` on a node for which `is_fully_expanded()` is true returns `NULL` and leaves the
whole store, so the node with its children, action list, state, action, depth, `num_visits` and
`value`, as it was; hence any number of further `expand` calls return `NULL` too and the node
stays fully expanded. -/
theorem expand_full_is_noop (E : Env State Action Rng) (σ : Store State Action Value Rng)
    (p : Nat) (nd : TreeNodeT State Action Value) (n : Nat)
    (h : σ.nodes[p]? = some nd) (hf : nd.is_fully_expanded = true) :
    TreeNodeT.expand E σ p = .ok (σ, none) ∧
    expand_times E σ p n = .ok (σ, List.replicate n none) :=
  ⟨expand_full E σ p nd h hf, expand_times_full E σ p nd h hf n⟩

/-- C15, on the pile of one token: after its single expansion the root is fully expanded, and
three more calls of `expand` return `NULL` and change nothing. -/
theorem expand_full_is_noop_witness :
    run (pile none) (plant 1 0) [Call.expand 0] = .ok pile_full ∧
    TreeNodeT.expand (pile none) pile_full 0 = .ok (pile_full, none) ∧
    expand_times (pile none) pile_full 0 3 = .ok (pile_full, [none, none, none]) :=
  ⟨rfl, expand_full_is_noop (pile none) pile_full 0 ⟨1, 0, none, 0, 0, 0, [1], [1]⟩ 3 rfl rfl⟩

end

end msa.mcts
